import Mathlib

/-!
Verification of the auto-cataloger addon (`projects/auto-cataloger/smh_asset_bulk_manager.py`).

Python strings are embedded as `List Char` (`Str`); Python text files as
`Option Str` (`none` = the file does not exist).  The catalog store, the
classification planner and the preview/apply coordinator are translated
function by function from the source.  Host-supplied data (Blender
datablocks, the resolved asset-library root, `bpy.data.filepath`) is
modelled as explicit record fields, and `uuid.uuid4()` as an explicit
supply `Nat → Str` of fresh identifier strings.  The SHA-1 plan digest is
modelled by its preimage byte stream (an idealised injective hash).
-/

set_option maxRecDepth 16384

abbrev Str := List Char

/-- Python `str` whitespace in the ASCII range, as used by `str.strip()`,
`str.split()` and the regex class `\s` (`' '`, `\t`, `\n`, `\r`, `\v`, `\f`).
Non-ASCII whitespace is outside the data handled by this addon and elided. -/
def pyIsSpace (c : Char) : Bool :=
  c = ' ' || c = '\t' || c = '\n' || c = '\r' || c = Char.ofNat 11 || c = Char.ofNat 12

/-- `str.lstrip` restricted to a character class. -/
def lstripBy (p : Char → Bool) (l : Str) : Str := l.dropWhile p

/-- `str.rstrip` restricted to a character class. -/
def rstripBy (p : Char → Bool) (l : Str) : Str := (l.reverse.dropWhile p).reverse

/-- `str.strip` restricted to a character class. -/
def stripBy (p : Char → Bool) (l : Str) : Str := rstripBy p (lstripBy p l)

/-- Python `value.strip()`. -/
def pyStrip (l : Str) : Str := stripBy pyIsSpace l

/-- Python `value.rstrip()`. -/
def pyRStrip (l : Str) : Str := rstripBy pyIsSpace l

/-- Python `value.replace(a, b)` for single characters. -/
def replaceChar (a b : Char) (l : Str) : Str := l.map fun c => if c = a then b else c

/-- `re.sub(p+, rep, s)`: replace every maximal run of characters matching `p`
by the single character `rep`.  The flag records whether the previous
character was part of a run. -/
def collapseBy (p : Char → Bool) (rep : Char) : Str → Bool → Str
  | [], _ => []
  | c :: cs, inRun =>
    if p c then
      (if inRun then collapseBy p rep cs true else rep :: collapseBy p rep cs true)
    else c :: collapseBy p rep cs false

/-- Source `_normalize_path_fragment`: backslashes to slashes, strip
whitespace, collapse repeated slashes (`re.sub(r"/{2,}", "/")`), strip
leading/trailing slashes. -/
def normalizePathFragment (value : Str) : Str :=
  let cleaned := pyStrip (replaceChar '\\' '/' value)
  let cleaned2 := collapseBy (fun c => c = '/') '/' cleaned false
  stripBy (fun c => c = '/') cleaned2

/-- The character class `[A-Za-z0-9._-]` of `_safe_segment`. -/
def safeChar (c : Char) : Bool :=
  ('A' ≤ c && c ≤ 'Z') || ('a' ≤ c && c ≤ 'z') || ('0' ≤ c && c ≤ '9')
    || c = '.' || c = '_' || c = '-'

/-- Source `_safe_segment`: strip, whitespace runs to `_`, characters outside
`[A-Za-z0-9._-]` to `_`, collapse `_` runs, strip `_`, fallback. -/
def safeSegment (value : Str) : Str :=
  let t1 := collapseBy pyIsSpace '_' (pyStrip value) false
  let t2 := t1.map fun c => if safeChar c then c else '_'
  let t3 := stripBy (fun c => c = '_') (collapseBy (fun c => c = '_') '_' t2 false)
  if t3 = [] then "Uncategorized".data else t3

/-- Python `value.split(t)` (full split on one character, empty parts kept;
always at least one part). -/
def splitCharAux (t : Char) : Str → Str → List Str
  | [], acc => [acc.reverse]
  | c :: cs, acc =>
    if c = t then acc.reverse :: splitCharAux t cs [] else splitCharAux t cs (c :: acc)

def splitChar (t : Char) (l : Str) : List Str := splitCharAux t l []

/-- Python `str.title()` for ASCII: a letter is uppercased when the previous
character is not a letter, lowercased otherwise. -/
def pyTitleAux : Str → Bool → Str
  | [], _ => []
  | c :: cs, prevCased =>
    (if c.isAlpha then (if prevCased then c.toLower else c.toUpper) else c)
      :: pyTitleAux cs c.isAlpha

def pyTitle (l : Str) : Str := pyTitleAux l false

/-- Source `_pretty_catalog_leaf`: last `/`-segment, `_` and `-` to spaces,
whitespace runs to one space, strip, fallback, title-case. -/
def prettyCatalogLeaf (value : Str) : Str :=
  let leaf := (splitChar '/' value).getLastD []
  let leaf2 := replaceChar '-' ' ' (replaceChar '_' ' ' leaf)
  let leaf3 := pyStrip (collapseBy pyIsSpace ' ' leaf2 false)
  if leaf3 = [] then "Uncategorized".data else pyTitle leaf3

/-- Python `value.split(t, 1)`: position of the first occurrence of `t`,
returning the part before it and the rest. -/
def splitFirstAux (t : Char) : Str → Str → Option (Str × Str)
  | [], _ => none
  | c :: cs, acc =>
    if c = t then some (acc.reverse, cs) else splitFirstAux t cs (c :: acc)

def splitFirst (t : Char) (l : Str) : Option (Str × Str) := splitFirstAux t l []

/-- Python `name.split()`: split on whitespace runs, no empty parts. -/
def splitWsAux : Str → Str → List Str
  | [], acc => if acc = [] then [] else [acc.reverse]
  | c :: cs, acc =>
    if pyIsSpace c then
      (if acc = [] then splitWsAux cs [] else acc.reverse :: splitWsAux cs [])
    else splitWsAux cs (c :: acc)

def splitWs (l : Str) : List Str := splitWsAux l []

/-- Source `_delimiter_token`.  The source indexes a dict with the enum value;
the enum property only ever holds one of the three keys. -/
def delimiterToken (d : Str) : Char :=
  if d = "UNDERSCORE".data then '_' else if d = "DASH".data then '-' else ' '

/-- Source `_prefix_from_name`: head of the delimiter split (for the space
delimiter, the first whitespace token, or the whole name if there is none),
then `_safe_segment`. -/
def prefixFromName (name : Str) (delimEnum : Str) : Str :=
  let delim := delimiterToken delimEnum
  let head :=
    if delim = ' ' then
      match splitWs name with
      | [] => name
      | t :: _ => t
    else
      match splitFirst delim name with
      | none => name
      | some a => a.1
  safeSegment head

/-- Python `stripped.split(":", 2)`: at most two splits, so one, two or three
parts; the third part keeps any further colons. -/
def pySplitColon2 (s : Str) : List Str :=
  match splitFirst ':' s with
  | none => [s]
  | some a =>
    match splitFirst ':' a.2 with
    | none => [a.1, a.2]
    | some b => [a.1, b.1, b.2]

/-- Iterating a Python text file line by line (universal newlines: `\n`,
`\r\n` and `\r` all end a line; a `\n` directly after a `\r` belongs to the
same CRLF break, tracked by the flag), with the line terminators dropped —
every line produced here is immediately `strip()`ed by the callers, so the
terminators never matter. -/
def splitLinesAux : Str → Str → Bool → List Str
  | [], acc, _ => if acc = [] then [] else [acc.reverse]
  | c :: cs, acc, prevCR =>
    if c = '\n' then
      (if prevCR then splitLinesAux cs [] false
       else acc.reverse :: splitLinesAux cs [] false)
    else if c = '\r' then acc.reverse :: splitLinesAux cs [] true
    else splitLinesAux cs (c :: acc) false

def pyLines (s : Str) : List Str := splitLinesAux s [] false

/-- Python `"\n".join(lines)`. -/
def joinNL : List Str → Str
  | [] => []
  | [l] => l
  | l :: l2 :: ls => l ++ '\n' :: joinNL (l2 :: ls)

/-- Python `"/".join(parts)`. -/
def joinSlash : List Str → Str
  | [] => []
  | [l] => l
  | l :: l2 :: ls => l ++ '/' :: joinSlash (l2 :: ls)

/-! ## Catalog store -/

structure CatEntry where
  uuid : Str
  name : Str
deriving DecidableEq

instance : Inhabited CatEntry := ⟨⟨[], []⟩⟩

/-- The `path_to_entry` dict: an association list with insertion-ordered,
pairwise-distinct keys (Python dict semantics). -/
abbrev EntryMap := List (Str × CatEntry)

def lookupD : EntryMap → Str → Option CatEntry
  | [], _ => none
  | kv :: rest, k => if kv.1 = k then some kv.2 else lookupD rest k

/-- Python `d[k] = v`: update in place if the key exists, else append. -/
def insertD : EntryMap → Str → CatEntry → EntryMap
  | [], k, v => [(k, v)]
  | kv :: rest, k, v =>
    if kv.1 = k then (k, v) :: rest else kv :: insertD rest k v

def lookupS : List (Str × Str) → Str → Option Str
  | [], _ => none
  | kv :: rest, k => if kv.1 = k then some kv.2 else lookupS rest k

def defaultHeaderLines : List Str :=
  ["# This is an Asset Catalog Definition file for Blender.".data,
   "# Managed by Auto Cataloger.".data,
   "VERSION 1".data]

def verHead : Str := "VERSION ".data

/-- A stripped line is a header line when it starts with `#` or `VERSION `. -/
def isHeaderLine (s : Str) : Bool :=
  List.isPrefixOf "#".data s || List.isPrefixOf verHead s

/-- The loop body of `_read_catalog_file`: strip, skip blanks, collect
headers, split the rest on `:` (max 2) and keep exactly-3-field lines. -/
def readFold : List Str → List Str → EntryMap → List Str × EntryMap
  | [], hs, es => (hs, es)
  | line :: rest, hs, es =>
    let s := pyStrip line
    if s = [] then readFold rest hs es
    else if isHeaderLine s then readFold rest (hs ++ [s]) es
    else
      match pySplitColon2 s with
      | [u, p, n] => readFold rest hs (insertD es p ⟨u, n⟩)
      | _ => readFold rest hs es

/-- Source `_read_catalog_file` over the file content (`none` = missing
file): missing file gives the default headers and no entries; otherwise the
line fold, then empty headers are replaced by the defaults, then a
`VERSION 1` line is appended when no `VERSION ` header was seen. -/
def readCatalogFile : Option Str → List Str × EntryMap
  | none => (defaultHeaderLines, [])
  | some content =>
    let r := readFold (pyLines content) [] []
    let hs1 := if r.1 = [] then defaultHeaderLines else r.1
    let hs2 := if hs1.any (fun h => List.isPrefixOf verHead h) then hs1
               else hs1 ++ ["VERSION 1".data]
    (hs2, r.2)

def entryLine (p : Str) (e : CatEntry) : Str := e.uuid ++ ':' :: (p ++ ':' :: e.name)

def leKey (x y : Str × CatEntry) : Prop := x.1 ≤ y.1

instance : DecidableRel leKey := fun x y => inferInstanceAs (Decidable (x.1 ≤ y.1))

instance : IsTotal (Str × CatEntry) leKey := ⟨fun a b => le_total a.1 b.1⟩

instance : IsTrans (Str × CatEntry) leKey := ⟨fun _ _ _ h1 h2 => le_trans h1 h2⟩

/-- `for catalog_path in sorted(path_to_entry.keys())` with the dict lookup:
for a dict (pairwise-distinct keys) this is exactly the entry list sorted by
key under the code-point order Python uses on strings. -/
def sortPairs (es : EntryMap) : EntryMap := List.insertionSort leKey es

def sortStrs (l : List Str) : List Str := List.insertionSort (fun a b : Str => a ≤ b) l

/-- The body written by `_write_catalog_file_with_backup`: rstripped header
lines, then entries sorted by path as `uuid:path:name`, joined with `\n`
(the file is opened with `newline="\n"`) plus one final newline. -/
def writeCatalogContent (headers : List Str) (es : EntryMap) : Str :=
  joinNL (headers.map pyRStrip ++ (sortPairs es).map fun kv => entryLine kv.1 kv.2) ++ ['\n']

/-- The catalog file and its `.bak` sibling under the library root. -/
structure CatalogFS where
  file : Option Str
  bak : Option Str
deriving DecidableEq

/-- Source `_write_catalog_file_with_backup`: if the catalog file exists its
content is first copied over the `.bak` sibling, then the new content is
written. -/
def writeCatalogFileWithBackup (fs : CatalogFS) (headers : List Str) (es : EntryMap) : CatalogFS :=
  { file := some (writeCatalogContent headers es),
    bak := match fs.file with
           | some c => some c
           | none => fs.bak }

structure EnsureResult where
  uuidMap : List (Str × Str)
  created : Nat
  fs : CatalogFS

/-- The loop of `_ensure_catalogs` over the sorted requested paths: skip
empty normalizations and existing keys, otherwise mint the next uuid from
the supply with the pretty display name. -/
def ensureLoop (supply : Nat → Str) : List Str → EntryMap → Nat → EntryMap × Nat
  | [], es, created => (es, created)
  | p :: ps, es, created =>
    let norm := normalizePathFragment p
    if norm = [] then ensureLoop supply ps es created
    else
      match lookupD es norm with
      | some _ => ensureLoop supply ps es created
      | none =>
        ensureLoop supply ps (insertD es norm ⟨supply created, prettyCatalogLeaf norm⟩)
          (created + 1)

/-- Source `_ensure_catalogs`: read, merge the sorted requested paths,
write back (with backup) only when at least one entry was created, and
return the path-to-uuid projection of the final dict plus the count.
`os.makedirs` is a no-op in this model (directory state is not modelled). -/
def ensureCatalogs (fs : CatalogFS) (catalogPaths : List Str) (supply : Nat → Str) :
    EnsureResult :=
  let r0 := readCatalogFile fs.file
  let r1 := ensureLoop supply (sortStrs catalogPaths) r0.2 0
  let fs1 := if r1.2 > 0 then writeCatalogFileWithBackup fs r0.1 r1.1 else fs
  { uuidMap := r1.1.map fun kv => (kv.1, kv.2.uuid), created := r1.2, fs := fs1 }

-- sanity checks on small concrete inputs
example : normalizePathFragment "Foo\\Bar//Baz/".data = "Foo/Bar/Baz".data := by decide
example : normalizePathFragment "a /".data = "a ".data := by decide
example : safeSegment "  a  b ".data = "a_b".data := by decide
example : safeSegment "a!b".data = "a_b".data := by decide
example : safeSegment "__".data = "Uncategorized".data := by decide
example : prettyCatalogLeaf "Props/big_chairs".data = "Big Chairs".data := by decide
example : pySplitColon2 "u:a:b:c".data = ["u".data, "a".data, "b:c".data] := by decide
example : pySplitColon2 "u:a".data = ["u".data, "a".data] := by decide
example : pyLines "a\nb\r\nc\rd\n".data = ["a".data, "b".data, "c".data, "d".data] := by decide
example : prefixFromName "Chair_old_big".data "UNDERSCORE".data = "Chair".data := by decide
example : prefixFromName "   ".data "SPACE".data = "Uncategorized".data := by decide

/-! ## Classification planner and coordinator -/

/-- Addon preferences (`AUTO_CATALOGER_preferences`), as an explicit record.
The enum properties are kept as their identifier strings, exactly as the
source compares them.  The field `catalogRootPfx` embeds the source field
`catalog_root_prefix` (renamed). -/
structure Prefs where
  asset_library_name : Str
  asset_library_root_folder : Str
  classification_mode : Str
  prefix_delimiter : Str
  catalogRootPfx : Str
  target_type : Str
  auto_mark_missing_as_assets : Bool
deriving DecidableEq

/-- A host datablock as the planner and apply loop observe it:
`isLinked` is `datablock.library is not None`; `sourceDir` and
`fromBlendFallback` are the host-dependent result of
`_source_dir_for_datablock` (an absolute, `os.path`-normalized directory, or
`none`); `typeSegment` is the bucket name from `_iter_target_datablocks`;
`assetData` is `datablock.asset_data.catalog_id` when the datablock is
marked as an asset; `canMark` is `hasattr(datablock, "asset_mark")` and
`markSucceeds` tells whether `asset_mark()` actually produces asset data. -/
structure Datablock where
  name : Str
  isLinked : Bool
  sourceDir : Option Str
  fromBlendFallback : Bool
  typeSegment : Str
  assetData : Option Str
  canMark : Bool
  markSucceeds : Bool
deriving DecidableEq

instance : Inhabited Datablock := ⟨⟨[], false, none, false, [], none, false, false⟩⟩

/-- Source `_compose_catalog_path` (Python truthiness on the normalized
fragments). -/
def composeCatalogPath (rootPfx tail : Str) : Str :=
  let p := normalizePathFragment rootPfx
  let t := normalizePathFragment tail
  if p = [] then (if t = [] then "Uncategorized".data else t)
  else (if t = [] then p else p ++ '/' :: t)

/-- `os.path.relpath(p, start)` on POSIX for absolute, `os.path`-normalized
inputs (which is what `_source_dir_for_datablock` produces): split both
into non-empty components, drop the common prefix, one `..` per remaining
start component, `"."` when nothing remains. -/
def relpathComponents (p : Str) : List Str := (splitChar '/' p).filter fun s => s ≠ []

def commonLen : List Str → List Str → Nat
  | a :: as, b :: bs => if a = b then commonLen as bs + 1 else 0
  | _, _ => 0

def relpathM (p start : Str) : Str :=
  let pl := relpathComponents p
  let sl := relpathComponents start
  let i := commonLen pl sl
  let rel := List.replicate (sl.length - i) "..".data ++ pl.drop i
  if rel = [] then ".".data else joinSlash rel

/-- The per-datablock outcome of the loop in `_build_assignment_plan`. -/
inductive PlanStep
  | linked
  | external
  | keep (catalogPath : Str)
deriving DecidableEq

/-- One iteration of the `_build_assignment_plan` loop. -/
def planStep (prefs : Prefs) (root : Str) (db : Datablock) : PlanStep :=
  if db.isLinked then .linked
  else if prefs.classification_mode = "NAME_PREFIX".data then
    .keep (composeCatalogPath prefs.catalogRootPfx
      (prefixFromName db.name prefs.prefix_delimiter))
  else
    match db.sourceDir with
    | none => .external
    | some srcDir =>
      let rel := relpathM srcDir root
      if List.isPrefixOf "..".data rel then .external
      else
        let tail :=
          if rel = ".".data then
            (if db.fromBlendFallback then safeSegment db.typeSegment else [])
          else
            let segments := ((splitChar '/' (replaceChar '\\' '/' rel)).filter
              fun part => part ≠ [] && part ≠ ".".data).map safeSegment
            let segments2 :=
              if db.fromBlendFallback then segments ++ [safeSegment db.typeSegment]
              else segments
            joinSlash segments2
        .keep (composeCatalogPath prefs.catalogRootPfx tail)

/-- The plan refers to datablocks by their index in the host's item list
(modelling Python object references). -/
structure PlanResult where
  plan : List (Nat × Str)
  skippedLinked : Nat
  skippedExternal : Nat
deriving DecidableEq

def buildPlanAux (prefs : Prefs) (root : Str) : List Datablock → Nat → PlanResult
  | [], _ => { plan := [], skippedLinked := 0, skippedExternal := 0 }
  | db :: rest, idx =>
    let r := buildPlanAux prefs root rest (idx + 1)
    match planStep prefs root db with
    | .linked => { r with skippedLinked := r.skippedLinked + 1 }
    | .external => { r with skippedExternal := r.skippedExternal + 1 }
    | .keep p => { r with plan := (idx, p) :: r.plan }

/-- Source `_build_assignment_plan`, with the library root already resolved
(root resolution is host state, see `Host.resolvedRoot`). -/
def buildPlan (prefs : Prefs) (root : Str) (items : List Datablock) : PlanResult :=
  buildPlanAux prefs root items 0

def boolStr (b : Bool) : Str := if b then "True".data else "False".data

def nulChar : Char := Char.ofNat 0

/-- The `(datablock.name, catalog_path)` pairs of a plan. -/
def planPairs (items : List Datablock) (plan : List (Nat × Str)) : List (Str × Str) :=
  plan.map fun ip => ((items[ip.1]?.map Datablock.name).getD [], ip.2)

/-- Source `_plan_signature`: the byte stream fed to `hashlib.sha1` — root,
the preference fields in order, then each `(name, path)` pair NUL-separated.
The SHA-1 digest itself is modelled by its preimage (idealised injective
hash); two signatures are equal exactly when the digested streams are. -/
def planSignature (prefs : Prefs) (root : Str) (pairs : List (Str × Str)) : Str :=
  root ++ prefs.asset_library_name ++ prefs.asset_library_root_folder
    ++ prefs.classification_mode ++ prefs.prefix_delimiter ++ prefs.catalogRootPfx
    ++ prefs.target_type ++ boolStr prefs.auto_mark_missing_as_assets
    ++ pairs.foldr (fun nv acc => nv.1 ++ nulChar :: (nv.2 ++ nulChar :: acc)) []

/-- The scene-attached `AUTO_CATALOGER_runtime` property group (the UIList
cursor `preview_index` is pure UI state and not modelled). -/
structure RuntimeState where
  previewItems : List (Str × Str)
  previewTotal : Nat
  previewCatalogCount : Nat
  previewSkippedLinked : Nat
  previewSkippedExternal : Nat
  previewReady : Bool
  previewSignature : Str
  lastRoot : Str
  lastRootSource : Str
deriving DecidableEq

def initialRuntimeState : RuntimeState :=
  { previewItems := [], previewTotal := 0, previewCatalogCount := 0,
    previewSkippedLinked := 0, previewSkippedExternal := 0,
    previewReady := false, previewSignature := [], lastRoot := [], lastRootSource := [] }

/-- The host-supplied context of one operator invocation: the result of
`_resolve_asset_library_root` (`none` makes `_build_assignment_plan` raise
`ValueError`), the addon preferences, and the target datablocks in
`_iter_target_datablocks` order. -/
structure Host where
  resolvedRoot : Option (Str × Str)
  prefs : Prefs
  items : List Datablock

inductive OpResult
  | finished
  | cancelled (msg : Str)
  | raised
deriving DecidableEq

def errRootMsg : Str := "Asset Library Root is empty and current .blend is not saved.".data

/-- First-occurrence deduplication (the key set of a Python dict / set
built by iteration). -/
def dedupAux : List Str → List Str → List Str
  | [], _ => []
  | p :: ps, seen => if p ∈ seen then dedupAux ps seen else p :: dedupAux ps (p :: seen)

def dedupKeepFirst (l : List Str) : List Str := dedupAux l []

/-- Source `AUTO_CATALOGER_OT_preview.execute` (the preferences are present;
the `prefs is None` guard is host plumbing). -/
def previewExecute (h : Host) (st : RuntimeState) : OpResult × RuntimeState :=
  let st0 := { st with previewItems := [], previewReady := false, previewSignature := [] }
  match h.resolvedRoot with
  | none => (.cancelled errRootMsg, st0)
  | some rs =>
    let pr := buildPlan h.prefs rs.1 h.items
    let pairs := planPairs h.items pr.plan
    (.finished,
     { st0 with
       previewItems := pairs.take 50,
       previewTotal := pr.plan.length,
       previewCatalogCount := (dedupKeepFirst (pr.plan.map Prod.snd)).length,
       previewSkippedLinked := pr.skippedLinked,
       previewSkippedExternal := pr.skippedExternal,
       previewSignature := planSignature h.prefs rs.1 pairs,
       previewReady := true,
       lastRoot := rs.1,
       lastRootSource := rs.2 })

def defaultCatalogId : Str := "00000000-0000-0000-0000-000000000000".data

structure ApplyLoopResult where
  items : List Datablock
  assigned : Nat
  skippedUnmarked : Nat
  autoMarked : Nat
  raised : Bool
deriving DecidableEq

/-- The assignment loop of `AUTO_CATALOGER_OT_apply.execute`: optional
`asset_mark()`, skip datablocks without asset data, then
`asset_data.catalog_id = uuid_map[catalog_path]` — an absent key raises an
uncaught `KeyError` (`raised := true`), leaving the earlier datablocks
already mutated and the catalog file already written. -/
def applyLoop (prefs : Prefs) (uuidMap : List (Str × Str)) :
    List (Nat × Str) → List Datablock → Nat → Nat → Nat → ApplyLoopResult
  | [], items, a, s, m =>
    { items := items, assigned := a, skippedUnmarked := s, autoMarked := m, raised := false }
  | ip :: rest, items, a, s, m =>
    let db := (items[ip.1]?).getD default
    let tryMark := db.assetData.isNone && prefs.auto_mark_missing_as_assets && db.canMark
    let ad1 := if tryMark && db.markSucceeds then some defaultCatalogId else db.assetData
    let m1 := if tryMark && db.markSucceeds then m + 1 else m
    match ad1 with
    | none => applyLoop prefs uuidMap rest items a (s + 1) m1
    | some _ =>
      match lookupS uuidMap ip.2 with
      | none =>
        { items := items.set ip.1 { db with assetData := ad1 }, assigned := a,
          skippedUnmarked := s, autoMarked := m1, raised := true }
      | some u =>
        applyLoop prefs uuidMap rest (items.set ip.1 { db with assetData := some u })
          (a + 1) s m1

def msgRunPreviewFirst : Str := "Run Preview first.".data

def msgOptionsChanged : Str := "Options or target set changed. Run Preview again.".data

def msgNoAssignable : Str := "No assignable assets found with current options.".data

/-- Source `AUTO_CATALOGER_OT_apply.execute`: rebuild the plan, recompute
the signature, check `preview_ready`, signature equality and plan
non-emptiness (each failure cancels before any write), then ensure the
catalogs (this writes the file when entries are created) and run the
assignment loop; on success reset the runtime state to non-previewed. -/
def applyExecute (h : Host) (st : RuntimeState) (fs : CatalogFS) (supply : Nat → Str) :
    OpResult × RuntimeState × CatalogFS × List Datablock :=
  match h.resolvedRoot with
  | none => (.cancelled errRootMsg, st, fs, h.items)
  | some rs =>
    let pr := buildPlan h.prefs rs.1 h.items
    let sig := planSignature h.prefs rs.1 (planPairs h.items pr.plan)
    if st.previewReady = false then (.cancelled msgRunPreviewFirst, st, fs, h.items)
    else if st.previewSignature ≠ sig then (.cancelled msgOptionsChanged, st, fs, h.items)
    else if pr.plan = [] then (.cancelled msgNoAssignable, st, fs, h.items)
    else
      let catalogPaths := sortStrs (dedupKeepFirst (pr.plan.map Prod.snd))
      let er := ensureCatalogs fs catalogPaths supply
      let lr := applyLoop h.prefs er.uuidMap pr.plan h.items 0 0 0
      if lr.raised then (.raised, st, er.fs, lr.items)
      else
        (.finished,
         { st with
           previewTotal := lr.assigned,
           previewCatalogCount := catalogPaths.length,
           previewSkippedLinked := pr.skippedLinked,
           previewSkippedExternal := pr.skippedExternal,
           previewReady := false,
           previewSignature := [],
           lastRoot := rs.1,
           lastRootSource := rs.2 },
         er.fs, lr.items)

/-- One user-triggered operator invocation; each invocation sees its own
host state (preferences and items may change arbitrarily between steps). -/
inductive CatOp
  | preview (h : Host)
  | apply (h : Host) (supply : Nat → Str)

def stepOp (st : RuntimeState) (fs : CatalogFS) : CatOp → OpResult × RuntimeState × CatalogFS
  | .preview h =>
    let r := previewExecute h st
    (r.1, r.2, fs)
  | .apply h supply =>
    let r := applyExecute h st fs supply
    (r.1, r.2.1, r.2.2.1)

/-- A sequence of preview/apply invocations threading the runtime state and
the catalog file, yielding the per-step outcomes. -/
def runTrace (st : RuntimeState) (fs : CatalogFS) : List CatOp → List (OpResult × RuntimeState × CatalogFS)
  | [] => []
  | op :: rest =>
    let x := stepOp st fs op
    x :: runTrace x.2.1 x.2.2 rest


/-! ## Predicates used by the verification -/

/-- A string with no line-break characters: it survives the file round trip
on a single line. -/
def lineClean (l : Str) : Bool := l.all fun c => c != '\n' && c != '\r'

def keysOf (es : EntryMap) : List Str := es.map Prod.fst

/-- Processing one non-blank, non-header stripped line: keep it only when the
`split(":", 2)` yields exactly three fields. -/
def parseStep (es : EntryMap) (s : Str) : EntryMap :=
  match pySplitColon2 s with
  | [u, p, n] => insertD es p ⟨u, n⟩
  | _ => es

/-- Invariant of header lines as the reader produces them. -/
def headerWF (h : Str) : Prop :=
  pyStrip h = h ∧ lineClean h = true ∧ isHeaderLine h = true

/-- Invariant of entries as the reader (and the minting in
`_ensure_catalogs`) produces them: uuid and path are colon-free, all three
fields are newline-free, and the formatted line is strip-invariant and not a
header line. -/
def entryWF (p : Str) (e : CatEntry) : Prop :=
  ':' ∉ p ∧ ':' ∉ e.uuid ∧ lineClean p = true ∧ lineClean e.uuid = true ∧
    lineClean e.name = true ∧ pyStrip (entryLine p e) = entryLine p e ∧
    isHeaderLine (entryLine p e) = false

/-- Invariant of every `(headers, entries)` state the store reaches by
loading a file and merging requested paths. -/
def storeWF (hs : List Str) (es : EntryMap) : Prop :=
  (∀ h ∈ hs, headerWF h) ∧ (∃ h ∈ hs, List.isPrefixOf verHead h = true) ∧
    (∀ pe ∈ es, entryWF pe.1 pe.2) ∧ (keysOf es).Nodup

/-- What we assume of each freshly minted identifier string: `uuid.uuid4()`
output (36 hex digits and dashes) satisfies all of it. -/
def supplyWF (u : Str) : Prop :=
  ':' ∉ u ∧ lineClean u = true ∧ pyStrip u = u ∧
    List.isPrefixOf "#".data u = false ∧ List.isPrefixOf verHead u = false

instance (h : Str) : Decidable (headerWF h) := by
  unfold headerWF
  infer_instance

instance (p : Str) (e : CatEntry) : Decidable (entryWF p e) := by
  unfold entryWF
  infer_instance

instance (hs : List Str) (es : EntryMap) : Decidable (storeWF hs es) := by
  unfold storeWF
  infer_instance

instance (u : Str) : Decidable (supplyWF u) := by
  unfold supplyWF
  infer_instance

/-! ## Specification-side definitions (from the claims' wording) -/

/-- C5's description of `load`, as amended: strip lines, drop blanks, keep
`#`/`VERSION ` lines as headers verbatim, parse the rest as 3-field
colon-splits dropping malformed lines; a missing file (and an existing file
with no header lines at all) gets the default 3-line header; `VERSION 1` is
appended when the resulting headers have no `VERSION ` line. -/
def loadSpecAmended : Option Str → List Str × EntryMap
  | none => (defaultHeaderLines, [])
  | some content =>
    let stripped := ((pyLines content).map pyStrip).filter fun s => s ≠ []
    let hs := stripped.filter fun s => isHeaderLine s
    let es := (stripped.filter fun s => !(isHeaderLine s)).foldl parseStep []
    let hs1 := if hs = [] then defaultHeaderLines else hs
    let hs2 := if hs1.any (fun h => List.isPrefixOf verHead h) then hs1
               else hs1 ++ ["VERSION 1".data]
    (hs2, es)

/-- C5's description of `load` exactly as stated: the default 3-line header
appears only for a missing file; for an existing file the headers are the
header lines found, plus `VERSION 1` when none of them is a `VERSION `
line. -/
def loadSpecClaim : Option Str → List Str × EntryMap
  | none => (defaultHeaderLines, [])
  | some content =>
    let stripped := ((pyLines content).map pyStrip).filter fun s => s ≠ []
    let hs := stripped.filter fun s => isHeaderLine s
    let es := (stripped.filter fun s => !(isHeaderLine s)).foldl parseStep []
    let hs2 := if hs.any (fun h => List.isPrefixOf verHead h) then hs
               else hs ++ ["VERSION 1".data]
    (hs2, es)

/-- C8's "first token obtained by splitting the name on the configured
delimiter" (for whitespace, the first whitespace-separated token, or the
name itself when there is none). -/
def firstTokenSpec (name : Str) (delim : Char) : Str :=
  if delim = ' ' then
    match splitWs name with
    | [] => name
    | t :: _ => t
  else
    match splitFirst delim name with
    | none => name
    | some a => a.1

/-- C8's sanitization exactly as stated: collapse whitespace to underscore,
REMOVE characters outside `[A-Za-z0-9._-]`, collapse repeated underscores,
fall back to `"Uncategorized"` if empty. -/
def claimSanitize (v : Str) : Str :=
  let a := collapseBy pyIsSpace '_' v false
  let b := a.filter safeChar
  let cc := collapseBy (fun c => c = '_') '_' b false
  if cc = [] then "Uncategorized".data else cc

/-- C8's sanitization as amended: collapse whitespace runs to a single
underscore, REPLACE each character outside `[A-Za-z0-9._-]` with an
underscore, collapse repeated underscores and strip leading/trailing
underscores, fall back to `"Uncategorized"` if empty.  (No initial
whitespace strip: it is subsumed by the underscore strip.) -/
def specSanitize (v : Str) : Str :=
  let a := collapseBy pyIsSpace '_' v false
  let b := a.map fun c => if safeChar c then c else '_'
  let cc := stripBy (fun c => c = '_') (collapseBy (fun c => c = '_') '_' b false)
  if cc = [] then "Uncategorized".data else cc

/-- C9's exclusion condition in relative-folder mode: the datablock has no
source directory at all, or its `os.path.relpath` from the library root
starts with `..`. -/
def externalCond (root : Str) (db : Datablock) : Bool :=
  match db.sourceDir with
  | none => true
  | some d => List.isPrefixOf "..".data (relpathM d root)

/-- Concrete relative-folder-mode preferences: library root `/lib/assets`. -/
def prefsC9 : Prefs :=
  ⟨"SMH Library".data, "/lib/assets".data, "RELATIVE_FOLDER".data,
   "UNDERSCORE".data, "MyLib".data, "ALL".data, false⟩

def rootC9 : Str := "/lib/assets".data

/-- One item in a sibling directory of the root, one inside the root. -/
def itemsC9 : List Datablock :=
  [⟨"Chair".data, false, some "/lib/other".data, false, "Objects".data,
    some "a".data, false, false⟩,
   ⟨"Table".data, false, some "/lib/assets/props".data, false, "Objects".data,
    some "b".data, false, false⟩]

/-- A constant uuid4 supply for concrete runs. -/
def supplyU : Nat → Str := fun _ => "11111111-2222-3333-4444-555555555555".data

/-- A host whose library root resolves to `/lib/assets` from the
preferences, carrying the two `itemsC9` datablocks. -/
def hostAC : Host := ⟨some ("/lib/assets".data, "preferences".data), prefsC9, itemsC9⟩

/-- Preview, apply, apply — the second apply must be rejected. -/
def opsC2 : List CatOp := [.preview hostAC, .apply hostAC supplyU, .apply hostAC supplyU]

/-- Relative-folder-mode preferences whose catalog root prefix `"a /"`
normalizes to `"a "` — a string that is itself not normalization-fixed. -/
def prefsC10 : Prefs :=
  ⟨"SMH Library".data, "/lib/assets".data, "RELATIVE_FOLDER".data,
   "UNDERSCORE".data, "a /".data, "ALL".data, false⟩

/-- A markable asset whose source directory is the library root itself. -/
def itemC10 : Datablock :=
  ⟨"Chair".data, false, some "/lib/assets".data, false, "Objects".data,
   some "x".data, false, false⟩

def hostC10 : Host := ⟨some ("/lib/assets".data, "preferences".data), prefsC10, [itemC10]⟩

/-- The `inRun` flag of `collapseBy` after processing `xs` starting from
flag `b`: `b` if `xs` is empty, otherwise whether the last character of
`xs` matches. -/
def flagAfter (p : Char → Bool) (xs : Str) (b : Bool) : Bool :=
  xs.foldl (fun _ c => p c) b

/-! ## Basic lemmas about the string primitives -/

theorem dropWhile_head_not {p : Char → Bool} :
    ∀ {l : Str} {c : Char} {t : Str}, l.dropWhile p = c :: t → p c = false
  | [], _, _, h => by simp at h
  | a :: l, c, t, h => by
    rw [List.dropWhile_cons] at h
    by_cases ha : p a
    · rw [if_pos ha] at h
      exact dropWhile_head_not h
    · rw [if_neg ha] at h
      cases h
      simpa using ha

theorem lstripBy_idem (p : Char → Bool) (l : Str) :
    lstripBy p (lstripBy p l) = lstripBy p l := by
  unfold lstripBy
  cases hd : l.dropWhile p with
  | nil => simp
  | cons c t =>
    have hc : p c = false := dropWhile_head_not hd
    simp [List.dropWhile_cons, hc]

theorem rstripBy_idem (p : Char → Bool) (l : Str) :
    rstripBy p (rstripBy p l) = rstripBy p l := by
  unfold rstripBy
  rw [List.reverse_reverse]
  have h := lstripBy_idem p l.reverse
  unfold lstripBy at h
  rw [h]

theorem lstripBy_eq_self_of_head {p : Char → Bool} {l : Str}
    (h : ∀ c t, l = c :: t → p c = false) : lstripBy p l = l := by
  unfold lstripBy
  cases l with
  | nil => simp
  | cons c t => simp [List.dropWhile_cons, h c t rfl]

theorem rstripBy_isPfx (p : Char → Bool) (l : Str) : rstripBy p l <+: l := by
  unfold rstripBy
  obtain ⟨t, ht⟩ := @List.dropWhile_suffix _ l.reverse p
  refine ⟨t.reverse, ?_⟩
  have h2 : (t ++ l.reverse.dropWhile p).reverse = l.reverse.reverse := by rw [ht]
  simp only [List.reverse_append, List.reverse_reverse] at h2
  simpa using h2

theorem lstripBy_eq_self_of_pfx (p : Char → Bool) {l m : Str} (hm : m <+: l)
    (hl : lstripBy p l = l) : lstripBy p m = m := by
  cases m with
  | nil => simp [lstripBy]
  | cons c t =>
    obtain ⟨t2, ht2⟩ := hm
    have hdw : l.dropWhile p = c :: (t ++ t2) := by
      unfold lstripBy at hl
      rw [hl, ← ht2]
      simp
    have hc : p c = false := dropWhile_head_not hdw
    simp [lstripBy, List.dropWhile_cons, hc]

theorem lstripBy_stripBy (p : Char → Bool) (l : Str) :
    lstripBy p (stripBy p l) = stripBy p l :=
  lstripBy_eq_self_of_pfx p (rstripBy_isPfx p _) (lstripBy_idem p l)

theorem stripBy_idem (p : Char → Bool) (l : Str) :
    stripBy p (stripBy p l) = stripBy p l := by
  show rstripBy p (lstripBy p (stripBy p l)) = stripBy p l
  rw [lstripBy_stripBy]
  show rstripBy p (rstripBy p (lstripBy p l)) = stripBy p l
  rw [rstripBy_idem]
  rfl

theorem rstripBy_eq_self_of_stripBy (p : Char → Bool) (l : Str) (h : stripBy p l = l) :
    rstripBy p l = l := by
  conv_lhs => rw [← h]
  unfold stripBy
  rw [rstripBy_idem]
  exact h

theorem rstripBy_eq_self_of_last {p : Char → Bool} {l : Str}
    (h : ∀ c, l.getLast? = some c → p c = false) : rstripBy p l = l := by
  unfold rstripBy
  have h2 : l.reverse.dropWhile p = l.reverse := by
    apply @lstripBy_eq_self_of_head p l.reverse
    intro c t hct
    apply h
    rw [← List.head?_reverse, hct]
    rfl
  rw [h2, List.reverse_reverse]

theorem stripBy_eq_self_of_ends {p : Char → Bool} {l : Str}
    (hhead : ∀ c t, l = c :: t → p c = false)
    (hlast : ∀ c, l.getLast? = some c → p c = false) : stripBy p l = l := by
  unfold stripBy
  rw [lstripBy_eq_self_of_head hhead, rstripBy_eq_self_of_last hlast]

theorem pyStrip_idem (l : Str) : pyStrip (pyStrip l) = pyStrip l := stripBy_idem _ l

theorem pyRStrip_eq_self_of_pyStrip {l : Str} (h : pyStrip l = l) : pyRStrip l = l :=
  rstripBy_eq_self_of_stripBy _ l h


theorem lineClean_append {a b : Str} :
    lineClean (a ++ b) = (lineClean a && lineClean b) := List.all_append

theorem lineClean_cons {c : Char} {l : Str} :
    lineClean (c :: l) = ((c != '\n' && c != '\r') && lineClean l) := List.all_cons ..

theorem lineClean_of_sublist {a b : Str} (hs : List.Sublist a b) (hb : lineClean b = true) :
    lineClean a = true := by
  rw [lineClean, List.all_eq_true] at hb ⊢
  exact fun c hc => hb c (hs.subset hc)

theorem lineClean_reverse {l : Str} : lineClean l.reverse = lineClean l := by
  simp [lineClean, List.all_eq_true]

theorem lineClean_pyStrip {l : Str} (h : lineClean l = true) :
    lineClean (pyStrip l) = true := by
  have h1 : lineClean (lstripBy pyIsSpace l) = true :=
    lineClean_of_sublist (List.dropWhile_suffix _).sublist h
  have h2 : lineClean (lstripBy pyIsSpace l).reverse = true := by
    rwa [lineClean_reverse]
  have h3 := lineClean_of_sublist
    (@List.dropWhile_suffix _ (lstripBy pyIsSpace l).reverse pyIsSpace).sublist h2
  show lineClean (rstripBy pyIsSpace (lstripBy pyIsSpace l)) = true
  unfold rstripBy
  rwa [lineClean_reverse]

theorem splitLinesAux_append_line {l : Str} (hl : lineClean l = true) :
    ∀ (acc rest : Str),
      splitLinesAux (l ++ '\n' :: rest) acc false
        = (acc.reverse ++ l) :: splitLinesAux rest [] false := by
  induction l with
  | nil =>
    intro acc rest
    simp [splitLinesAux]
  | cons c l ih =>
    intro acc rest
    rw [lineClean_cons] at hl
    have hc1 : c ≠ '\n' := by
      intro h; subst h; simp at hl
    have hc2 : c ≠ '\r' := by
      intro h; subst h; simp at hl
    have hcl : lineClean l = true := by
      simp at hl; exact hl.2
    show splitLinesAux (c :: (l ++ '\n' :: rest)) acc false = _
    rw [splitLinesAux]
    simp only [if_neg hc1, if_neg hc2]
    rw [ih hcl (c :: acc) rest]
    simp

theorem pyLines_joinNL {l : Str} {L : List Str} (hl : lineClean l = true)
    (hL : ∀ x ∈ L, lineClean x = true) :
    pyLines (joinNL (l :: L) ++ ['\n']) = l :: L := by
  induction L generalizing l with
  | nil =>
    show pyLines (l ++ '\n' :: []) = [l]
    unfold pyLines
    rw [splitLinesAux_append_line hl]
    simp [splitLinesAux]
  | cons l2 L ih =>
    show pyLines ((l ++ '\n' :: joinNL (l2 :: L)) ++ ['\n']) = l :: l2 :: L
    have hre : (l ++ '\n' :: joinNL (l2 :: L)) ++ ['\n']
        = l ++ '\n' :: (joinNL (l2 :: L) ++ ['\n']) := by simp
    rw [hre]
    unfold pyLines
    rw [splitLinesAux_append_line hl]
    have := @ih l2 (hL l2 (by simp)) (fun x hx => hL x (by simp [hx]))
    unfold pyLines at this
    rw [this]
    simp

theorem splitLinesAux_chunks_clean :
    ∀ (s acc : Str) (flag : Bool), lineClean acc = true →
      ∀ x ∈ splitLinesAux s acc flag, lineClean x = true := by
  intro s
  induction s with
  | nil =>
    intro acc flag hacc x hx
    rw [splitLinesAux] at hx
    by_cases h : acc = []
    · simp [h] at hx
    · rw [if_neg h] at hx
      simp at hx
      subst hx
      rwa [lineClean_reverse]
  | cons c cs ih =>
    intro acc flag hacc x hx
    rw [splitLinesAux] at hx
    by_cases h1 : c = '\n'
    · rw [if_pos h1] at hx
      by_cases h2 : flag
      · rw [if_pos h2] at hx
        exact ih [] false rfl x hx
      · rw [if_neg h2] at hx
        simp at hx
        rcases hx with hx | hx
        · subst hx; rwa [lineClean_reverse]
        · exact ih [] false rfl x hx
    · rw [if_neg h1] at hx
      by_cases h2 : c = '\r'
      · rw [if_pos h2] at hx
        simp at hx
        rcases hx with hx | hx
        · subst hx; rwa [lineClean_reverse]
        · exact ih [] true rfl x hx
      · rw [if_neg h2] at hx
        refine ih (c :: acc) false ?_ x hx
        rw [lineClean_cons, hacc]
        simp [h1, h2]

theorem pyLines_chunks_clean {s : Str} {x : Str} (hx : x ∈ pyLines s) :
    lineClean x = true :=
  splitLinesAux_chunks_clean s [] false rfl x hx

/-! ## Lemmas about `splitFirst` and `pySplitColon2` -/

theorem splitFirstAux_append {t : Char} :
    ∀ {u : Str} (r acc : Str), t ∉ u →
      splitFirstAux t (u ++ t :: r) acc = some (acc.reverse ++ u, r)
  | [], r, acc, _ => by simp [splitFirstAux]
  | c :: u, r, acc, hu => by
    have hc : c ≠ t := fun h => hu (by simp [h])
    have hu2 : t ∉ u := fun h => hu (by simp [h])
    show splitFirstAux t (c :: (u ++ t :: r)) acc = _
    rw [splitFirstAux]
    rw [if_neg hc]
    rw [splitFirstAux_append r (c :: acc) hu2]
    simp

theorem splitFirst_append {t : Char} {u : Str} (r : Str) (hu : t ∉ u) :
    splitFirst t (u ++ t :: r) = some (u, r) := by
  unfold splitFirst
  rw [splitFirstAux_append r [] hu]
  simp

theorem splitFirstAux_eq_some {t : Char} :
    ∀ {l : Str} {acc a r : Str}, splitFirstAux t l acc = some (a, r) →
      ∃ u, l = u ++ t :: r ∧ a = acc.reverse ++ u ∧ t ∉ u
  | [], acc, a, r, h => by simp [splitFirstAux] at h
  | c :: l, acc, a, r, h => by
    rw [splitFirstAux] at h
    by_cases hc : c = t
    · rw [if_pos hc] at h
      cases h
      exact ⟨[], by simp [hc], by simp, by simp⟩
    · rw [if_neg hc] at h
      obtain ⟨u, h1, h2, h3⟩ := splitFirstAux_eq_some h
      refine ⟨c :: u, by simp [h1], by simpa using h2, ?_⟩
      intro hmem
      rcases List.mem_cons.mp hmem with h | h
      · exact hc h.symm
      · exact h3 h

theorem splitFirst_eq_some {t : Char} {l a r : Str} (h : splitFirst t l = some (a, r)) :
    l = a ++ t :: r ∧ t ∉ a := by
  obtain ⟨u, h1, h2, h3⟩ := splitFirstAux_eq_some h
  simp at h2
  subst h2
  exact ⟨h1, h3⟩

theorem pySplitColon2_entryLine {u p n : Str} (hu : ':' ∉ u) (hp : ':' ∉ p) :
    pySplitColon2 (u ++ ':' :: (p ++ ':' :: n)) = [u, p, n] := by
  unfold pySplitColon2
  rw [splitFirst_append _ hu]
  simp only
  rw [splitFirst_append _ hp]

theorem pySplitColon2_eq_three {s u p n : Str} (h : pySplitColon2 s = [u, p, n]) :
    s = u ++ ':' :: (p ++ ':' :: n) ∧ ':' ∉ u ∧ ':' ∉ p := by
  unfold pySplitColon2 at h
  cases h1 : splitFirst ':' s with
  | none => rw [h1] at h; simp at h
  | some ar =>
    obtain ⟨a1, a2⟩ := ar
    rw [h1] at h
    dsimp only at h
    cases h2 : splitFirst ':' a2 with
    | none => rw [h2] at h; simp at h
    | some br =>
      obtain ⟨b1, b2⟩ := br
      rw [h2] at h
      dsimp only at h
      simp at h
      obtain ⟨hu, hp, hn⟩ := h
      obtain ⟨hs1, hnu⟩ := splitFirst_eq_some h1
      obtain ⟨hs2, hnp⟩ := splitFirst_eq_some h2
      subst hu hp hn
      refine ⟨?_, hnu, hnp⟩
      rw [hs1, hs2]

/-! ## Lemmas about the entry dictionary -/


theorem lookupD_eq_none_iff {es : EntryMap} {k : Str} :
    lookupD es k = none ↔ k ∉ keysOf es := by
  induction es with
  | nil => simp [lookupD, keysOf]
  | cons kv rest ih =>
    show (if kv.1 = k then some kv.2 else lookupD rest k) = none ↔ ¬ k ∈ kv.1 :: keysOf rest
    by_cases h : kv.1 = k
    · rw [if_pos h]
      simp [h]
    · rw [if_neg h, List.mem_cons]
      constructor
      · intro hn hor
        rcases hor with hor | hor
        · exact h hor.symm
        · exact (ih.mp hn) hor
      · intro hn
        exact ih.mpr fun hm => hn (Or.inr hm)

theorem insertD_of_not_mem {es : EntryMap} {k : Str} (v : CatEntry) (h : k ∉ keysOf es) :
    insertD es k v = es ++ [(k, v)] := by
  induction es with
  | nil => simp [insertD]
  | cons kv rest ih =>
    rw [keysOf, List.map_cons, List.mem_cons] at h
    have h1 : kv.1 ≠ k := fun he => h (Or.inl he.symm)
    have h2 : k ∉ keysOf rest := fun hm => h (Or.inr hm)
    simp [insertD, h1, ih h2]

theorem keysOf_insertD {es : EntryMap} {k : Str} {v : CatEntry} :
    keysOf (insertD es k v) = if k ∈ keysOf es then keysOf es else keysOf es ++ [k] := by
  induction es with
  | nil => simp [insertD, keysOf]
  | cons kv rest ih =>
    by_cases h : kv.1 = k
    · have hm2 : k ∈ keysOf (kv :: rest) := by
        subst h
        exact List.mem_cons_self _ _
      rw [if_pos hm2, insertD, if_pos h]
      show k :: keysOf rest = keysOf (kv :: rest)
      show k :: keysOf rest = kv.1 :: keysOf rest
      rw [h]
    · have h2 : ¬ k = kv.1 := fun he => h he.symm
      by_cases hm : k ∈ keysOf rest
      · have hm2 : k ∈ keysOf (kv :: rest) := List.mem_cons.mpr (Or.inr hm)
        rw [if_pos hm2, insertD, if_neg h]
        show kv.1 :: keysOf (insertD rest k v) = kv.1 :: keysOf rest
        rw [ih, if_pos hm]
      · have hm2 : k ∉ keysOf (kv :: rest) := by
          show ¬ k ∈ kv.1 :: keysOf rest
          rw [List.mem_cons]
          push_neg
          exact ⟨h2, hm⟩
        rw [if_neg hm2, insertD, if_neg h]
        show kv.1 :: keysOf (insertD rest k v) = kv.1 :: (keysOf rest ++ [k])
        rw [ih, if_neg hm]

theorem nodup_keysOf_insertD {es : EntryMap} {k : Str} {v : CatEntry}
    (h : (keysOf es).Nodup) : (keysOf (insertD es k v)).Nodup := by
  rw [keysOf_insertD]
  by_cases hm : k ∈ keysOf es
  · simpa [hm] using h
  · simp only [hm, if_false]
    rw [List.nodup_append]
    exact ⟨h, List.nodup_singleton k, by simpa using hm⟩

theorem mem_insertD_of_mem {es : EntryMap} {k : Str} {v : CatEntry} {pe : Str × CatEntry}
    (h : pe ∈ insertD es k v) : pe = (k, v) ∨ pe ∈ es := by
  induction es with
  | nil => simp [insertD] at h; simp [h]
  | cons kv rest ih =>
    by_cases hk : kv.1 = k
    · rw [insertD, if_pos hk] at h
      rcases List.mem_cons.mp h with h | h
      · exact Or.inl h
      · exact Or.inr (by simp [h])
    · rw [insertD, if_neg hk] at h
      rcases List.mem_cons.mp h with h | h
      · exact Or.inr (by simp [h])
      · rcases ih h with h | h
        · exact Or.inl h
        · exact Or.inr (by simp [h])

theorem lookupD_eq_some_of_mem {es : EntryMap} {p : Str} {e : CatEntry}
    (hnd : (keysOf es).Nodup) (h : (p, e) ∈ es) : lookupD es p = some e := by
  induction es with
  | nil => simp at h
  | cons kv rest ih =>
    rw [keysOf, List.map_cons, List.nodup_cons] at hnd
    rcases List.mem_cons.mp h with h | h
    · subst h
      simp [lookupD]
    · have hne : kv.1 ≠ p := by
        intro he
        exact hnd.1 (by rw [he]; exact List.mem_map_of_mem Prod.fst h)
      rw [lookupD, if_neg hne]
      exact ih hnd.2 h

theorem mem_of_lookupD_eq_some {es : EntryMap} {p : Str} {e : CatEntry}
    (h : lookupD es p = some e) : (p, e) ∈ es := by
  induction es with
  | nil => simp [lookupD] at h
  | cons kv rest ih =>
    obtain ⟨k1, v1⟩ := kv
    by_cases hk : k1 = p
    · rw [lookupD, if_pos hk] at h
      cases h
      subst hk
      exact List.mem_cons_self _ _
    · rw [lookupD, if_neg hk] at h
      exact List.mem_cons.mpr (Or.inr (ih h))

theorem lookupD_eq_of_perm {es es' : EntryMap} (hp : es.Perm es')
    (hnd : (keysOf es).Nodup) (q : Str) : lookupD es q = lookupD es' q := by
  have hnd' : (keysOf es').Nodup := ((hp.map Prod.fst).nodup_iff).mp hnd
  cases h : lookupD es q with
  | some e =>
    exact (lookupD_eq_some_of_mem hnd' (hp.mem_iff.mp (mem_of_lookupD_eq_some h))).symm
  | none =>
    rw [lookupD_eq_none_iff] at h
    have : q ∉ keysOf es' := fun hm => h ((hp.map Prod.fst).mem_iff.mpr hm)
    exact (lookupD_eq_none_iff.mpr this).symm

theorem foldl_insertD_fresh :
    ∀ {sp : EntryMap} {acc : EntryMap}, (keysOf (acc ++ sp)).Nodup →
      sp.foldl (fun es kv => insertD es kv.1 kv.2) acc = acc ++ sp
  | [], acc, _ => by simp
  | kv :: sp, acc, h => by
    obtain ⟨k1, v1⟩ := kv
    have hsplit : ((List.map Prod.fst acc) ++ (List.map Prod.fst ((k1, v1) :: sp))).Nodup := by
      have : keysOf (acc ++ (k1, v1) :: sp)
          = List.map Prod.fst acc ++ List.map Prod.fst ((k1, v1) :: sp) := by
        unfold keysOf
        rw [List.map_append]
      rw [← this]
      exact h
    rw [List.nodup_append] at hsplit
    have hk : k1 ∉ keysOf acc := fun hm => hsplit.2.2 hm (by simp)
    rw [List.foldl_cons]
    show List.foldl (fun es kv => insertD es kv.1 kv.2) (insertD acc k1 v1) sp
        = acc ++ (k1, v1) :: sp
    rw [insertD_of_not_mem v1 hk]
    have h2 : (keysOf ((acc ++ [(k1, v1)]) ++ sp)).Nodup := by
      have heq : (acc ++ [(k1, v1)]) ++ sp = acc ++ (k1, v1) :: sp := by simp
      rw [heq]
      exact h
    rw [foldl_insertD_fresh h2]
    simp

/-! ## Lemmas about sorting -/

theorem sortPairs_perm (es : EntryMap) : (sortPairs es).Perm es :=
  List.perm_insertionSort leKey es

theorem sortPairs_sorted (es : EntryMap) : List.Sorted leKey (sortPairs es) :=
  List.sorted_insertionSort leKey es

theorem keysOf_sortPairs_nodup {es : EntryMap} (h : (keysOf es).Nodup) :
    (keysOf (sortPairs es)).Nodup :=
  (((sortPairs_perm es).map Prod.fst).nodup_iff).mpr h

theorem sortStrs_perm (l : List Str) : (sortStrs l).Perm l :=
  List.perm_insertionSort _ l

theorem mem_sortStrs {l : List Str} {x : Str} : x ∈ sortStrs l ↔ x ∈ l :=
  (sortStrs_perm l).mem_iff

/-! ## The lenient parser as filters (fusion form of `readFold`) -/


theorem readFold_spec :
    ∀ (ls : List Str) (hs : List Str) (es : EntryMap),
      readFold ls hs es =
        (hs ++ (((ls.map pyStrip).filter fun s => s ≠ []).filter fun s => isHeaderLine s),
         ((((ls.map pyStrip).filter fun s => s ≠ []).filter fun s => !(isHeaderLine s)).foldl
            parseStep es))
  | [], hs, es => by simp [readFold]
  | line :: ls, hs, es => by
    rw [readFold]
    by_cases h1 : pyStrip line = []
    · simp only [h1, if_pos rfl]
      rw [readFold_spec ls hs es]
      simp [h1]
    · rw [if_neg h1]
      by_cases h2 : isHeaderLine (pyStrip line)
      · rw [if_pos h2]
        rw [readFold_spec ls (hs ++ [pyStrip line]) es]
        simp [h1, h2]
      · rw [if_neg h2]
        have hps : (match pySplitColon2 (pyStrip line) with
            | [u, p, n] => readFold ls hs (insertD es p ⟨u, n⟩)
            | _ => readFold ls hs es) = readFold ls hs (parseStep es (pyStrip line)) := by
          unfold parseStep
          cases pySplitColon2 (pyStrip line) with
          | nil => rfl
          | cons a r =>
            cases r with
            | nil => rfl
            | cons b r2 =>
              cases r2 with
              | nil => rfl
              | cons cc r3 =>
                cases r3 with
                | nil => rfl
                | cons d r4 => rfl
        rw [hps]
        rw [readFold_spec ls hs (parseStep es (pyStrip line))]
        have hb2 : (!(isHeaderLine (pyStrip line))) = true := by
          simp [h2]
        simp [h1, h2, hb2]

/-! ## Reachable-store well-formedness -/




theorem isHeaderLine_nil : isHeaderLine [] = false := by decide

theorem lineClean_colon_cons {l : Str} (h : lineClean l = true) :
    lineClean (':' :: l) = true := by
  rw [lineClean_cons, h]
  decide

theorem entryWF_of_parts {s u p n : Str} (hspl : pySplitColon2 s = [u, p, n])
    (hstrip : pyStrip s = s) (hclean : lineClean s = true)
    (hhead : isHeaderLine s = false) : entryWF p ⟨u, n⟩ := by
  obtain ⟨hs, hu, hp⟩ := pySplitColon2_eq_three hspl
  have hsline : entryLine p ⟨u, n⟩ = s := by rw [hs]; rfl
  have hcu : lineClean u = true := by
    rw [hs, lineClean_append] at hclean
    exact (Bool.and_eq_true_iff.mp hclean).1
  have hrest : lineClean (p ++ ':' :: n) = true := by
    rw [hs, lineClean_append] at hclean
    have h2 := (Bool.and_eq_true_iff.mp hclean).2
    rw [lineClean_cons] at h2
    exact (Bool.and_eq_true_iff.mp h2).2
  have hcp : lineClean p = true := by
    rw [lineClean_append] at hrest
    exact (Bool.and_eq_true_iff.mp hrest).1
  have hcn : lineClean n = true := by
    rw [lineClean_append] at hrest
    have h2 := (Bool.and_eq_true_iff.mp hrest).2
    rw [lineClean_cons] at h2
    exact (Bool.and_eq_true_iff.mp h2).2
  exact ⟨hp, hu, hcp, hcu, hcn, by rw [hsline]; exact hstrip, by rw [hsline]; exact hhead⟩

theorem parse_foldl_WF :
    ∀ (lines : List Str) (es0 : EntryMap),
      (∀ pe ∈ es0, entryWF pe.1 pe.2) → (keysOf es0).Nodup →
      (∀ s ∈ lines, pyStrip s = s ∧ lineClean s = true ∧ isHeaderLine s = false) →
      (∀ pe ∈ lines.foldl parseStep es0, entryWF pe.1 pe.2) ∧
        (keysOf (lines.foldl parseStep es0)).Nodup
  | [], es0, hwf, hnd, _ => ⟨hwf, hnd⟩
  | s :: lines, es0, hwf, hnd, hl => by
    rw [List.foldl_cons]
    have hs := hl s (by simp)
    have hstep : (∀ pe ∈ parseStep es0 s, entryWF pe.1 pe.2) ∧
        (keysOf (parseStep es0 s)).Nodup := by
      unfold parseStep
      cases hspl : pySplitColon2 s with
      | nil => exact ⟨hwf, hnd⟩
      | cons a rest =>
        cases rest with
        | nil => exact ⟨hwf, hnd⟩
        | cons b rest2 =>
          cases rest2 with
          | nil => exact ⟨hwf, hnd⟩
          | cons cc rest3 =>
            cases rest3 with
            | nil =>
              refine ⟨?_, nodup_keysOf_insertD hnd⟩
              intro pe hpe
              rcases mem_insertD_of_mem hpe with hpe | hpe
              · subst hpe
                exact entryWF_of_parts hspl hs.1 hs.2.1 hs.2.2
              · exact hwf pe hpe
            | cons _ _ => exact ⟨hwf, hnd⟩
    exact parse_foldl_WF lines (parseStep es0 s) hstep.1 hstep.2
      (fun x hx => hl x (by simp [hx]))

theorem readCatalogFile_WF (file : Option Str) :
    storeWF (readCatalogFile file).1 (readCatalogFile file).2 := by
  cases file with
  | none =>
    refine ⟨?_, ?_, ?_, ?_⟩
    · intro h hh
      fin_cases hh <;> exact ⟨by decide, by decide, by decide⟩
    · exact ⟨"VERSION 1".data, by decide⟩
    · intro pe hpe
      simp [readCatalogFile] at hpe
    · simp [readCatalogFile, keysOf]
  | some content =>
    have hfold := readFold_spec (pyLines content) [] []
    set stripped := ((pyLines content).map pyStrip).filter fun s => s ≠ [] with hstr
    have hmem : ∀ s ∈ stripped, pyStrip s = s ∧ lineClean s = true := by
      intro s hsm
      rw [hstr, List.mem_filter] at hsm
      obtain ⟨hsm, _⟩ := hsm
      obtain ⟨raw, hraw, hsraw⟩ := List.mem_map.mp hsm
      constructor
      · rw [← hsraw]; exact pyStrip_idem raw
      · rw [← hsraw]
        exact lineClean_pyStrip (pyLines_chunks_clean hraw)
    have hhead : ∀ h ∈ stripped.filter (fun s => isHeaderLine s), headerWF h := by
      intro h hh
      rw [List.mem_filter] at hh
      exact ⟨(hmem h hh.1).1, (hmem h hh.1).2, hh.2⟩
    have hent := parse_foldl_WF (stripped.filter fun s => !(isHeaderLine s)) []
      (by intro pe hpe; simp at hpe) (by simp [keysOf])
      (by
        intro s hsm
        rw [List.mem_filter] at hsm
        refine ⟨(hmem s hsm.1).1, (hmem s hsm.1).2, ?_⟩
        simpa using hsm.2)
    have h1 : (readFold (pyLines content) [] []).1
        = stripped.filter (fun s => isHeaderLine s) := by
      rw [hfold]
      simp
    have h2 : (readFold (pyLines content) [] []).2
        = (stripped.filter fun s => !(isHeaderLine s)).foldl parseStep [] := by
      rw [hfold]
    set hs0 := stripped.filter (fun s => isHeaderLine s) with hhs0
    set es0 := (stripped.filter fun s => !(isHeaderLine s)).foldl parseStep [] with hes0
    have hread1 : (readCatalogFile (some content)).1 =
        (if (if hs0 = [] then defaultHeaderLines else hs0).any (fun h => List.isPrefixOf verHead h)
         then (if hs0 = [] then defaultHeaderLines else hs0)
         else (if hs0 = [] then defaultHeaderLines else hs0) ++ ["VERSION 1".data]) := by
      show (let r := readFold (pyLines content) [] []
            let hs1 := if r.1 = [] then defaultHeaderLines else r.1
            let hs2 := if hs1.any (fun h => List.isPrefixOf verHead h) then hs1
                       else hs1 ++ ["VERSION 1".data]
            (hs2, r.2)).1 = _
      dsimp only
      rw [h1]
    have hread2 : (readCatalogFile (some content)).2 = es0 := by
      show (let r := readFold (pyLines content) [] []
            let hs1 := if r.1 = [] then defaultHeaderLines else r.1
            let hs2 := if hs1.any (fun h => List.isPrefixOf verHead h) then hs1
                       else hs1 ++ ["VERSION 1".data]
            (hs2, r.2)).2 = _
      dsimp only
      rw [h2]
    rw [storeWF, hread1, hread2]
    set hs1 := if hs0 = [] then defaultHeaderLines else hs0 with hhs1
    have hhs1wf : ∀ h ∈ hs1, headerWF h := by
      rw [hhs1]
      by_cases h0 : hs0 = []
      · rw [if_pos h0]
        intro h hh
        fin_cases hh <;> exact ⟨by decide, by decide, by decide⟩
      · rw [if_neg h0]
        exact hhead
    by_cases hv : hs1.any (fun h => List.isPrefixOf verHead h)
    · rw [if_pos hv]
      refine ⟨hhs1wf, ?_, hent.1, hent.2⟩
      rw [List.any_eq_true] at hv
      obtain ⟨h, hh1, hh2⟩ := hv
      exact ⟨h, hh1, hh2⟩
    · rw [if_neg hv]
      refine ⟨?_, ?_, hent.1, hent.2⟩
      · intro h hh
        rcases List.mem_append.mp hh with hh | hh
        · exact hhs1wf h hh
        · simp at hh
          subst hh
          exact ⟨by decide, by decide, by decide⟩
      · exact ⟨"VERSION 1".data, by simp, by decide⟩

/-! ## Round trip: write followed by load -/

theorem headerWF_ne_nil {h : Str} (hw : headerWF h) : h ≠ [] := fun he => by
  have h2 := hw.2.2
  rw [he, isHeaderLine_nil] at h2
  exact Bool.false_ne_true h2

theorem entryLine_ne_nil (p : Str) (e : CatEntry) : entryLine p e ≠ [] := by
  unfold entryLine
  simp

theorem entryWF_lineClean {p : Str} {e : CatEntry} (hw : entryWF p e) :
    lineClean (entryLine p e) = true := by
  obtain ⟨_, _, hcp, hcu, hcn, _, _⟩ := hw
  unfold entryLine
  rw [lineClean_append, hcu, lineClean_cons, lineClean_append, hcp, lineClean_cons, hcn]
  decide

theorem foldl_parse_entryLines :
    ∀ (sp : EntryMap) (acc : EntryMap),
      (∀ pe ∈ sp, ':' ∉ pe.1 ∧ ':' ∉ pe.2.uuid) →
      (sp.map fun kv => entryLine kv.1 kv.2).foldl parseStep acc
        = sp.foldl (fun es kv => insertD es kv.1 kv.2) acc
  | [], _, _ => rfl
  | kv :: sp, acc, h => by
    rw [List.map_cons, List.foldl_cons, List.foldl_cons]
    have hkv := h kv (by simp)
    have hp : parseStep acc (entryLine kv.1 kv.2) = insertD acc kv.1 kv.2 := by
      unfold parseStep
      rw [show entryLine kv.1 kv.2 = kv.2.uuid ++ ':' :: (kv.1 ++ ':' :: kv.2.name) from rfl]
      rw [pySplitColon2_entryLine hkv.2 hkv.1]
    rw [hp]
    exact foldl_parse_entryLines sp _ fun pe hpe => h pe (by simp [hpe])

theorem readCatalogFile_some_eq (content : Str) (hs0 : List Str) (es0 : EntryMap)
    (h : readFold (pyLines content) [] [] = (hs0, es0)) :
    readCatalogFile (some content) =
      ((if (if hs0 = [] then defaultHeaderLines else hs0).any (fun x => List.isPrefixOf verHead x)
        then (if hs0 = [] then defaultHeaderLines else hs0)
        else (if hs0 = [] then defaultHeaderLines else hs0) ++ ["VERSION 1".data]), es0) := by
  show (let r := readFold (pyLines content) [] []
        let hs1 := if r.1 = [] then defaultHeaderLines else r.1
        let hs2 := if hs1.any (fun x => List.isPrefixOf verHead x) then hs1
                   else hs1 ++ ["VERSION 1".data]
        (hs2, r.2)) = _
  rw [h]

/-- Writing a reachable store state and loading the file back reproduces the
headers verbatim and the entries as the key-sorted dictionary. -/
theorem read_writeCatalogContent {hs : List Str} {es : EntryMap} (hwf : storeWF hs es) :
    readCatalogFile (some (writeCatalogContent hs es)) = (hs, sortPairs es) := by
  obtain ⟨hhead, hver, hent, hnd⟩ := hwf
  obtain ⟨h0, hh0, hver0⟩ := hver
  have hentS : ∀ pe ∈ sortPairs es, entryWF pe.1 pe.2 := fun pe hpe =>
    hent pe ((sortPairs_perm es).mem_iff.mp hpe)
  have hmapr : hs.map pyRStrip = hs := by
    have h1 : hs.map pyRStrip = hs.map id :=
      List.map_congr_left fun h hh => pyRStrip_eq_self_of_pyStrip (hhead h hh).1
    rw [h1, List.map_id]
  cases hs with
  | nil => cases hh0
  | cons hh hs' =>
    have hwc : writeCatalogContent (hh :: hs') es
        = joinNL (hh :: (hs' ++ (sortPairs es).map fun kv => entryLine kv.1 kv.2)) ++ ['\n'] := by
      unfold writeCatalogContent
      rw [hmapr]
      rw [List.cons_append]
    have hcleanAll : ∀ l ∈ hh :: (hs' ++ (sortPairs es).map fun kv => entryLine kv.1 kv.2),
        lineClean l = true := by
      intro l hl
      rcases List.mem_cons.mp hl with hl | hl
      · subst hl
        exact (hhead l (by simp)).2.1
      · rcases List.mem_append.mp hl with hl | hl
        · exact (hhead l (by simp [hl])).2.1
        · obtain ⟨kv, hkv, hkl⟩ := List.mem_map.mp hl
          rw [← hkl]
          exact entryWF_lineClean (hentS kv hkv)
    have hlines : pyLines (writeCatalogContent (hh :: hs') es)
        = hh :: (hs' ++ (sortPairs es).map fun kv => entryLine kv.1 kv.2) := by
      rw [hwc]
      exact pyLines_joinNL (hcleanAll hh (by simp))
        (fun x hx => hcleanAll x (by simp [hx]))
    -- the lines are already stripped and non-blank
    have hstripinv : ∀ l ∈ hh :: (hs' ++ (sortPairs es).map fun kv => entryLine kv.1 kv.2),
        pyStrip l = l := by
      intro l hl
      rcases List.mem_cons.mp hl with hl | hl
      · subst hl; exact (hhead l (by simp)).1
      · rcases List.mem_append.mp hl with hl | hl
        · exact (hhead l (by simp [hl])).1
        · obtain ⟨kv, hkv, hkl⟩ := List.mem_map.mp hl
          rw [← hkl]
          exact (hentS kv hkv).2.2.2.2.2.1
    have hnonnil : ∀ l ∈ hh :: (hs' ++ (sortPairs es).map fun kv => entryLine kv.1 kv.2),
        l ≠ [] := by
      intro l hl
      rcases List.mem_cons.mp hl with hl | hl
      · subst hl; exact headerWF_ne_nil (hhead l (by simp))
      · rcases List.mem_append.mp hl with hl | hl
        · exact headerWF_ne_nil (hhead l (by simp [hl]))
        · obtain ⟨kv, hkv, hkl⟩ := List.mem_map.mp hl
          rw [← hkl]
          exact entryLine_ne_nil kv.1 kv.2
    -- compute the fold result
    have hfold := readFold_spec
      (hh :: (hs' ++ (sortPairs es).map fun kv => entryLine kv.1 kv.2)) [] []
    have hmapstrip : (hh :: (hs' ++ (sortPairs es).map fun kv => entryLine kv.1 kv.2)).map pyStrip
        = hh :: (hs' ++ (sortPairs es).map fun kv => entryLine kv.1 kv.2) := by
      have h1 : (hh :: (hs' ++ (sortPairs es).map fun kv => entryLine kv.1 kv.2)).map pyStrip
          = (hh :: (hs' ++ (sortPairs es).map fun kv => entryLine kv.1 kv.2)).map id :=
        List.map_congr_left fun l hl => hstripinv l hl
      rw [h1, List.map_id]
    have hfilterne : (hh :: (hs' ++ (sortPairs es).map fun kv => entryLine kv.1 kv.2)).filter
          (fun s => s ≠ []) = hh :: (hs' ++ (sortPairs es).map fun kv => entryLine kv.1 kv.2) :=
      List.filter_eq_self.mpr fun a ha => by simpa using hnonnil a ha
    have hfh : (hh :: (hs' ++ (sortPairs es).map fun kv => entryLine kv.1 kv.2)).filter
          (fun s => isHeaderLine s) = hh :: hs' := by
      rw [List.filter_cons_of_pos (by exact (hhead hh (by simp)).2.2), List.filter_append]
      rw [List.filter_eq_self.mpr fun a ha => (hhead a (by simp [ha])).2.2]
      rw [List.filter_eq_nil_iff.mpr ?_, List.append_nil]
      intro a ha
      obtain ⟨kv, hkv, hkl⟩ := List.mem_map.mp ha
      rw [← hkl]
      simp [(hentS kv hkv).2.2.2.2.2.2]
    have hfe : (hh :: (hs' ++ (sortPairs es).map fun kv => entryLine kv.1 kv.2)).filter
          (fun s => !(isHeaderLine s)) = (sortPairs es).map fun kv => entryLine kv.1 kv.2 := by
      rw [List.filter_cons_of_neg (by simp [(hhead hh (by simp)).2.2]), List.filter_append]
      rw [List.filter_eq_nil_iff.mpr fun a ha => by simp [(hhead a (by simp [ha])).2.2]]
      rw [List.filter_eq_self.mpr ?_, List.nil_append]
      intro a ha
      obtain ⟨kv, hkv, hkl⟩ := List.mem_map.mp ha
      rw [← hkl]
      simp [(hentS kv hkv).2.2.2.2.2.2]
    have hfoldentries : ((sortPairs es).map fun kv => entryLine kv.1 kv.2).foldl parseStep []
        = sortPairs es := by
      rw [foldl_parse_entryLines (sortPairs es) []
        (fun pe hpe => ⟨(hentS pe hpe).1, (hentS pe hpe).2.1⟩)]
      have hndS : (keysOf ([] ++ sortPairs es)).Nodup := by
        rw [List.nil_append]
        exact keysOf_sortPairs_nodup hnd
      rw [foldl_insertD_fresh hndS, List.nil_append]
    rw [hmapstrip, hfilterne, hfh, hfe, hfoldentries] at hfold
    simp only [List.nil_append] at hfold
    rw [readCatalogFile_some_eq _ (hh :: hs') (sortPairs es) (by rw [hlines]; exact hfold)]
    have hne : (hh :: hs') ≠ [] := by simp
    rw [if_neg hne]
    have hany : (hh :: hs').any (fun x => List.isPrefixOf verHead x) = true :=
      List.any_eq_true.mpr ⟨h0, hh0, hver0⟩
    rw [if_pos hany]

/-! ## Character-level facts for title-casing and whitespace -/

theorem char_toNat_ofNat {n : Nat} (h : n.isValidChar) : (Char.ofNat n).toNat = n := by
  unfold Char.ofNat
  rw [dif_pos h]
  rfl

theorem pyIsSpace_eq_false_of_ge {c : Char} (h : 33 ≤ c.toNat) : pyIsSpace c = false := by
  have h1 : c ≠ ' ' := fun he => absurd h (by subst he; decide)
  have h2 : c ≠ '\t' := fun he => absurd h (by subst he; decide)
  have h3 : c ≠ '\n' := fun he => absurd h (by subst he; decide)
  have h4 : c ≠ '\r' := fun he => absurd h (by subst he; decide)
  have h5 : c ≠ Char.ofNat 11 := fun he => absurd h (by subst he; decide)
  have h6 : c ≠ Char.ofNat 12 := fun he => absurd h (by subst he; decide)
  simp [pyIsSpace, h1, h2, h3, h4, h5, h6]

theorem pyIsSpace_false_ne_break {c : Char} (h : pyIsSpace c = false) :
    c ≠ '\n' ∧ c ≠ '\r' :=
  ⟨fun he => by subst he; exact absurd h (by decide),
   fun he => by subst he; exact absurd h (by decide)⟩

theorem pyIsSpace_of_isAlpha {c : Char} (h : c.isAlpha = true) : pyIsSpace c = false := by
  have h1 : c ≠ ' ' := fun he => by subst he; exact absurd h (by decide)
  have h2 : c ≠ '\t' := fun he => by subst he; exact absurd h (by decide)
  have h3 : c ≠ '\n' := fun he => by subst he; exact absurd h (by decide)
  have h4 : c ≠ '\r' := fun he => by subst he; exact absurd h (by decide)
  have h5 : c ≠ Char.ofNat 11 := fun he => by subst he; exact absurd h (by decide)
  have h6 : c ≠ Char.ofNat 12 := fun he => by subst he; exact absurd h (by decide)
  simp [pyIsSpace, h1, h2, h3, h4, h5, h6]

theorem pyIsSpace_toLower {c : Char} (h : pyIsSpace c = false) :
    pyIsSpace c.toLower = false := by
  unfold Char.toLower
  by_cases hc : c.toNat ≥ 65 ∧ c.toNat ≤ 90
  · rw [if_pos hc]
    apply pyIsSpace_eq_false_of_ge
    rw [char_toNat_ofNat (Or.inl (by omega))]
    omega
  · rw [if_neg hc]
    exact h

theorem pyIsSpace_toUpper {c : Char} (h : pyIsSpace c = false) :
    pyIsSpace c.toUpper = false := by
  unfold Char.toUpper
  by_cases hc : c.toNat ≥ 97 ∧ c.toNat ≤ 122
  · rw [if_pos hc]
    apply pyIsSpace_eq_false_of_ge
    rw [char_toNat_ofNat (Or.inl (by omega))]
    omega
  · rw [if_neg hc]
    exact h

theorem pyTitle_char_space_mask (c : Char) (b : Bool) :
    pyIsSpace (if c.isAlpha then (if b then c.toLower else c.toUpper) else c)
      = pyIsSpace c := by
  by_cases ha : c.isAlpha
  · have h0 := pyIsSpace_of_isAlpha ha
    have hl := pyIsSpace_toLower h0
    have hu := pyIsSpace_toUpper h0
    cases b <;> simp [ha, h0, hl, hu]
  · simp [ha]

theorem map_pyIsSpace_pyTitleAux :
    ∀ (l : Str) (b : Bool), (pyTitleAux l b).map pyIsSpace = l.map pyIsSpace
  | [], _ => rfl
  | c :: l, b => by
    rw [pyTitleAux, List.map_cons, List.map_cons]
    rw [pyTitle_char_space_mask, map_pyIsSpace_pyTitleAux l c.isAlpha]

theorem lineClean_pyTitleAux :
    ∀ (l : Str) (b : Bool), lineClean l = true → lineClean (pyTitleAux l b) = true
  | [], _, _ => rfl
  | c :: l, b, h => by
    rw [lineClean_cons] at h
    obtain ⟨hc, hl⟩ := Bool.and_eq_true_iff.mp h
    rw [pyTitleAux, lineClean_cons]
    have hcc : ((if c.isAlpha then (if b then c.toLower else c.toUpper) else c) != '\n'
        && (if c.isAlpha then (if b then c.toLower else c.toUpper) else c) != '\r') = true := by
      by_cases ha : c.isAlpha
      · have h0 := pyIsSpace_of_isAlpha ha
        obtain ⟨hn1, hr1⟩ := pyIsSpace_false_ne_break (pyIsSpace_toLower h0)
        obtain ⟨hn2, hr2⟩ := pyIsSpace_false_ne_break (pyIsSpace_toUpper h0)
        cases b <;> simp [ha, hn1, hr1, hn2, hr2]
      · rw [if_neg ha]
        exact hc
    rw [hcc, lineClean_pyTitleAux l c.isAlpha hl]
    rfl

theorem lineClean_collapseWs (rep : Char) (hrep : (rep != '\n' && rep != '\r') = true) :
    ∀ (l : Str) (b : Bool), lineClean (collapseBy pyIsSpace rep l b) = true
  | [], _ => rfl
  | c :: l, b => by
    rw [collapseBy]
    by_cases hc : pyIsSpace c
    · rw [if_pos hc]
      cases b
      · rw [if_neg (by simp)]
        rw [lineClean_cons, hrep, lineClean_collapseWs rep hrep l true]
        rfl
      · rw [if_pos rfl]
        exact lineClean_collapseWs rep hrep l true
    · rw [if_neg hc]
      rw [lineClean_cons]
      have hb : pyIsSpace c = false := by
        cases hpc : pyIsSpace c
        · rfl
        · exact absurd hpc hc
      obtain ⟨hn, hr⟩ := pyIsSpace_false_ne_break hb
      rw [lineClean_collapseWs rep hrep l false]
      simp [hn, hr]

theorem lineClean_prettyCatalogLeaf (v : Str) : lineClean (prettyCatalogLeaf v) = true := by
  unfold prettyCatalogLeaf
  dsimp only
  by_cases h : pyStrip (collapseBy pyIsSpace ' '
      (replaceChar '-' ' ' (replaceChar '_' ' ' ((splitChar '/' v).getLastD []))) false) = []
  · rw [if_pos h]
    decide
  · rw [if_neg h]
    exact lineClean_pyTitleAux _ false
      (lineClean_pyStrip (lineClean_collapseWs ' ' (by decide) _ false))

/-! ## Well-formedness of minted entries -/


theorem lstripBy_eq_self_of_stripBy (p : Char → Bool) (l : Str) (h : stripBy p l = l) :
    lstripBy p l = l := by
  conv_lhs => rw [← h]
  rw [lstripBy_stripBy]
  exact h

theorem stripBy_getLast_not {p : Char → Bool} {l : Str} {c : Char}
    (h : (stripBy p l).getLast? = some c) : p c = false := by
  unfold stripBy rstripBy at h
  rw [List.getLast?_reverse] at h
  cases hd : (lstripBy p l).reverse.dropWhile p with
  | nil => rw [hd] at h; cases h
  | cons a t =>
    rw [hd] at h
    cases h
    exact dropWhile_head_not hd

theorem not_prefix_append_colon {pat u rest : Str} (hpat : ':' ∉ pat)
    (hu : List.isPrefixOf pat u = false) :
    List.isPrefixOf pat (u ++ ':' :: rest) = false := by
  cases hb : List.isPrefixOf pat (u ++ ':' :: rest) with
  | false => rfl
  | true =>
    exfalso
    have hpre : pat <+: u ++ ':' :: rest := List.isPrefixOf_iff_prefix.mp hb
    have hpre2 : u <+: u ++ ':' :: rest := ⟨':' :: rest, rfl⟩
    rcases List.prefix_or_prefix_of_prefix hpre hpre2 with h | h
    · rw [List.isPrefixOf_iff_prefix.mpr h] at hu
      cases hu
    · obtain ⟨v, hv⟩ := h
      cases v with
      | nil =>
        rw [List.append_nil] at hv
        rw [← hv, List.isPrefixOf_iff_prefix.mpr (List.prefix_refl u)] at hu
        cases hu
      | cons c v2 =>
        have hcan : c :: v2 <+: ':' :: rest := by
          rw [← List.prefix_append_right_inj u, hv]
          exact hpre
        obtain ⟨w, hw⟩ := hcan
        have hc : c = ':' := by
          have := congrArg (fun l => l.head?) hw
          simpa using this
        have hmem : ':' ∈ pat := by
          rw [← hv]
          subst hc
          exact List.mem_append.mpr (Or.inr (by simp))
        exact hpat hmem

theorem pyTitleAux_eq_nil_iff : ∀ (l : Str) (b : Bool), pyTitleAux l b = [] ↔ l = []
  | [], b => by simp [pyTitleAux]
  | c :: l, b => by simp [pyTitleAux]

theorem prettyCatalogLeaf_ne_nil (v : Str) : prettyCatalogLeaf v ≠ [] := by
  unfold prettyCatalogLeaf
  dsimp only
  by_cases h : pyStrip (collapseBy pyIsSpace ' '
      (replaceChar '-' ' ' (replaceChar '_' ' ' ((splitChar '/' v).getLastD []))) false) = []
  · rw [if_pos h]
    decide
  · rw [if_neg h]
    intro hnil
    exact h ((pyTitleAux_eq_nil_iff _ false).mp hnil)

theorem prettyCatalogLeaf_getLast_not_space {v : Str} {c : Char}
    (h : (prettyCatalogLeaf v).getLast? = some c) : pyIsSpace c = false := by
  unfold prettyCatalogLeaf at h
  dsimp only at h
  by_cases h0 : pyStrip (collapseBy pyIsSpace ' '
      (replaceChar '-' ' ' (replaceChar '_' ' ' ((splitChar '/' v).getLastD []))) false) = []
  · rw [if_pos h0] at h
    have : c = 'd' := by
      have hc : ("Uncategorized".data).getLast? = some 'd' := by decide
      rw [hc] at h
      cases h
      rfl
    subst this
    decide
  · rw [if_neg h0] at h
    -- the whitespace mask of the title equals that of its input
    have hmask := map_pyIsSpace_pyTitleAux (pyStrip (collapseBy pyIsSpace ' '
      (replaceChar '-' ' ' (replaceChar '_' ' ' ((splitChar '/' v).getLastD []))) false)) false
    have hlast := congrArg (fun l => l.getLast?) hmask
    simp only [List.getLast?_map] at hlast
    have h2 : (pyTitleAux (pyStrip (collapseBy pyIsSpace ' '
        (replaceChar '-' ' ' (replaceChar '_' ' ' ((splitChar '/' v).getLastD []))) false))
        false).getLast? = some c := h
    rw [h2] at hlast
    cases hx : (pyStrip (collapseBy pyIsSpace ' '
        (replaceChar '-' ' ' (replaceChar '_' ' ' ((splitChar '/' v).getLastD []))) false)).getLast? with
    | none =>
      rw [hx] at hlast
      cases hlast
    | some d =>
      rw [hx] at hlast
      have hd : pyIsSpace c = pyIsSpace d := by
        simpa using hlast
      rw [hd]
      exact stripBy_getLast_not hx

theorem getLast?_append_of_ne_nil {x y : Str} (h : y ≠ []) :
    (x ++ y).getLast? = y.getLast? := by
  rw [List.getLast?_append]
  apply Option.or_of_isSome
  cases hg : y.getLast? with
  | none =>
    rw [List.getLast?_eq_none_iff] at hg
    exact absurd hg h
  | some d => rfl

/-- The entry minted by `_ensure_catalogs` for a normalized path whose text
is colon-free and newline-free satisfies the store invariant. -/
theorem minted_entryWF {p u : Str} (hp1 : ':' ∉ p) (hp2 : lineClean p = true)
    (hu : supplyWF u) : entryWF p ⟨u, prettyCatalogLeaf p⟩ := by
  obtain ⟨hu1, hu2, hu3, hu4, hu5⟩ := hu
  have hname := lineClean_prettyCatalogLeaf p
  refine ⟨hp1, hu1, hp2, hu2, hname, ?_, ?_⟩
  · -- strip-invariance of the formatted line
    apply stripBy_eq_self_of_ends
    · intro c t hct
      unfold entryLine at hct
      cases hcu : u with
      | nil =>
        rw [hcu] at hct
        simp at hct
        rw [hct.1.symm]
        decide
      | cons a u2 =>
        rw [hcu] at hct
        simp at hct
        have hls : lstripBy pyIsSpace u = u := lstripBy_eq_self_of_stripBy _ _ hu3
        rw [hcu] at hls
        have := @dropWhile_head_not pyIsSpace (a :: u2) a u2 hls
        rw [← hct.1]
        exact this
    · intro c hc
      have hg : (entryLine p ⟨u, prettyCatalogLeaf p⟩).getLast?
          = (prettyCatalogLeaf p).getLast? := by
        show (u ++ ':' :: (p ++ ':' :: prettyCatalogLeaf p)).getLast? = _
        rw [getLast?_append_of_ne_nil (by simp)]
        rw [show (':' :: (p ++ ':' :: prettyCatalogLeaf p))
            = [':'] ++ (p ++ ':' :: prettyCatalogLeaf p) from rfl]
        rw [getLast?_append_of_ne_nil (by simp)]
        rw [getLast?_append_of_ne_nil (by simp)]
        rw [show (':' :: prettyCatalogLeaf p) = [':'] ++ prettyCatalogLeaf p from rfl]
        rw [getLast?_append_of_ne_nil (prettyCatalogLeaf_ne_nil p)]
      rw [hg] at hc
      exact prettyCatalogLeaf_getLast_not_space hc
  · -- the line is not a header line
    unfold isHeaderLine entryLine
    rw [not_prefix_append_colon (by decide) hu4, not_prefix_append_colon (by decide) hu5]
    rfl

/-! ## The merge loop of `_ensure_catalogs` -/

theorem lookupD_insertD (es : EntryMap) (k : Str) (v : CatEntry) (q : Str) :
    lookupD (insertD es k v) q = if q = k then some v else lookupD es q := by
  induction es with
  | nil =>
    show (if k = q then some v else lookupD [] q) = _
    by_cases h : k = q
    · rw [if_pos h, if_pos h.symm]
    · rw [if_neg h, if_neg (fun hh => h hh.symm)]
  | cons kv rest ih =>
    show lookupD (if kv.1 = k then (k, v) :: rest else kv :: insertD rest k v) q = _
    by_cases h : kv.1 = k
    · rw [if_pos h]
      show (if k = q then some v else lookupD rest q) = _
      by_cases h2 : k = q
      · rw [if_pos h2, if_pos h2.symm]
      · rw [if_neg h2, if_neg (fun hh => h2 hh.symm)]
        show lookupD rest q = (if kv.1 = q then some kv.2 else lookupD rest q)
        rw [if_neg (by rw [h]; exact fun hh => h2 hh)]
    · rw [if_neg h]
      show (if kv.1 = q then some kv.2 else lookupD (insertD rest k v) q) = _
      by_cases h2 : kv.1 = q
      · rw [if_pos h2]
        have hq : ¬ q = k := by
          rw [← h2]
          exact fun hh => h hh
        rw [if_neg hq]
        show some kv.2 = (if kv.1 = q then some kv.2 else lookupD rest q)
        rw [if_pos h2]
      · rw [if_neg h2, ih]
        by_cases h3 : q = k
        · rw [if_pos h3, if_pos h3]
        · rw [if_neg h3, if_neg h3]
          show lookupD rest q = (if kv.1 = q then some kv.2 else lookupD rest q)
          rw [if_neg h2]

theorem lookupS_map_uuid (es : EntryMap) (q : Str) :
    lookupS (es.map fun kv => (kv.1, kv.2.uuid)) q = (lookupD es q).map CatEntry.uuid := by
  induction es with
  | nil => rfl
  | cons kv rest ih =>
    show (if kv.1 = q then some kv.2.uuid else lookupS _ q) = _
    rw [show lookupD (kv :: rest) q = if kv.1 = q then some kv.2 else lookupD rest q from rfl]
    by_cases h : kv.1 = q
    · rw [if_pos h, if_pos h]
      rfl
    · rw [if_neg h, if_neg h, ih]

theorem ensureLoop_lemma :
    ∀ (ps : List Str) (es : EntryMap) (n : Nat) (supply : Nat → Str),
      (∀ i, supplyWF (supply i)) →
      (∀ pe ∈ es, entryWF pe.1 pe.2) → (keysOf es).Nodup →
      (∀ p ∈ ps, ':' ∉ normalizePathFragment p ∧ lineClean (normalizePathFragment p) = true) →
      (∀ pe ∈ (ensureLoop supply ps es n).1, entryWF pe.1 pe.2) ∧
      (keysOf (ensureLoop supply ps es n).1).Nodup ∧
      (∀ q e, lookupD es q = some e → lookupD (ensureLoop supply ps es n).1 q = some e) ∧
      (∀ p ∈ ps, normalizePathFragment p = [] ∨
        (lookupD (ensureLoop supply ps es n).1 (normalizePathFragment p)).isSome = true) ∧
      ((∀ p ∈ ps, normalizePathFragment p = [] ∨
        (lookupD es (normalizePathFragment p)).isSome = true) →
        ensureLoop supply ps es n = (es, n))
  | [], es, n, supply, _, hwf, hnd, _ =>
    ⟨hwf, hnd, fun _ _ h => h, by simp, fun _ => rfl⟩
  | p :: ps, es, n, supply, hsup, hwf, hnd, hps => by
    rw [ensureLoop]
    by_cases h1 : normalizePathFragment p = []
    · rw [if_pos h1]
      obtain ⟨A, B, C, D, E⟩ := ensureLoop_lemma ps es n supply hsup hwf hnd
        (fun q hq => hps q (by simp [hq]))
      refine ⟨A, B, C, ?_, ?_⟩
      · intro q hq
        rcases List.mem_cons.mp hq with hq | hq
        · subst hq
          exact Or.inl h1
        · exact D q hq
      · intro hall
        exact E (fun q hq => hall q (by simp [hq]))
    · rw [if_neg h1]
      cases h2 : lookupD es (normalizePathFragment p) with
      | some e0 =>
        obtain ⟨A, B, C, D, E⟩ := ensureLoop_lemma ps es n supply hsup hwf hnd
          (fun q hq => hps q (by simp [hq]))
        refine ⟨A, B, C, ?_, ?_⟩
        · intro q hq
          rcases List.mem_cons.mp hq with hq | hq
          · subst hq
            right
            rw [C _ _ h2]
            rfl
          · exact D q hq
        · intro hall
          exact E (fun q hq => hall q (by simp [hq]))
      | none =>
        have hwf2 : ∀ pe ∈ insertD es (normalizePathFragment p)
            ⟨supply n, prettyCatalogLeaf (normalizePathFragment p)⟩, entryWF pe.1 pe.2 := by
          intro pe hpe
          rcases mem_insertD_of_mem hpe with hpe | hpe
          · subst hpe
            exact minted_entryWF (hps p (by simp)).1 (hps p (by simp)).2 (hsup n)
          · exact hwf pe hpe
        have hnd2 := @nodup_keysOf_insertD es (normalizePathFragment p)
          ⟨supply n, prettyCatalogLeaf (normalizePathFragment p)⟩ hnd
        obtain ⟨A, B, C, D, E⟩ := ensureLoop_lemma ps
          (insertD es (normalizePathFragment p)
            ⟨supply n, prettyCatalogLeaf (normalizePathFragment p)⟩)
          (n + 1) supply hsup hwf2 hnd2 (fun q hq => hps q (by simp [hq]))
        refine ⟨A, B, ?_, ?_, ?_⟩
        · intro q e h
          apply C
          rw [lookupD_insertD]
          by_cases hq : q = normalizePathFragment p
          · rw [hq, h2] at h
            cases h
          · rw [if_neg hq]
            exact h
        · intro q hq
          rcases List.mem_cons.mp hq with hq | hq
          · subst hq
            right
            have hsome : lookupD (insertD es (normalizePathFragment q)
                ⟨supply n, prettyCatalogLeaf (normalizePathFragment q)⟩)
                (normalizePathFragment q) = some ⟨supply n, prettyCatalogLeaf (normalizePathFragment q)⟩ := by
              rw [lookupD_insertD, if_pos rfl]
            rw [C _ _ hsome]
            rfl
          · exact D q hq
        · intro hall
          exfalso
          rcases hall p (by simp) with hh | hh
          · exact h1 hh
          · rw [h2] at hh
            cases hh

/-! ## Claim C5 -/

/-- C5 (amended): `load` never errors and follows the lenient parse — blank
lines ignored, `#`/`VERSION ` lines kept verbatim as headers, other lines
split on `:` (max 2) into exactly 3 fields with malformed lines silently
dropped; a missing file yields the default 3-line header and no entries;
additionally (the amendment) an existing file in which no header line was
found gets the default 3-line header substituted before the VERSION check,
so `VERSION 1` is appended only when some header line was found but none
starts with `VERSION `. -/
theorem c5_load_lenient_parse (file : Option Str) :
    readCatalogFile file = loadSpecAmended file := by
  cases file with
  | none => rfl
  | some content =>
    have h := readFold_spec (pyLines content) [] []
    simp only [List.nil_append] at h
    rw [readCatalogFile_some_eq content _ _ h]
    rfl

/-- C5 counterexample: on a file holding one entry line and no header lines,
the code substitutes the full default 3-line header, while the claim as
stated predicts the single header line `VERSION 1`. -/
theorem c5_claim_counterexample :
    readCatalogFile (some "a:b:c".data) ≠ loadSpecClaim (some "a:b:c".data) ∧
    (readCatalogFile (some "a:b:c".data)).1 = defaultHeaderLines ∧
    (loadSpecClaim (some "a:b:c".data)).1 = ["VERSION 1".data] := by
  refine ⟨?_, by decide, by decide⟩
  decide

/-! ## `_ensure_catalogs` as a whole -/

theorem ensureCatalogs_def (fs : CatalogFS) (cps : List Str) (supply : Nat → Str) :
    ensureCatalogs fs cps supply =
      { uuidMap := (ensureLoop supply (sortStrs cps) (readCatalogFile fs.file).2 0).1.map
          fun kv => (kv.1, kv.2.uuid),
        created := (ensureLoop supply (sortStrs cps) (readCatalogFile fs.file).2 0).2,
        fs := if (ensureLoop supply (sortStrs cps) (readCatalogFile fs.file).2 0).2 > 0
              then writeCatalogFileWithBackup fs (readCatalogFile fs.file).1
                (ensureLoop supply (sortStrs cps) (readCatalogFile fs.file).2 0).1
              else fs } := rfl

theorem ensureLoop_created_le (supply : Nat → Str) :
    ∀ (ps : List Str) (es : EntryMap) (n : Nat), n ≤ (ensureLoop supply ps es n).2
  | [], _, n => le_refl n
  | p :: ps, es, n => by
    rw [ensureLoop]
    by_cases h1 : normalizePathFragment p = []
    · rw [if_pos h1]
      exact ensureLoop_created_le supply ps es n
    · rw [if_neg h1]
      cases lookupD es (normalizePathFragment p) with
      | some e0 => exact ensureLoop_created_le supply ps es n
      | none =>
        exact le_trans (Nat.le_succ n) (ensureLoop_created_le supply ps _ (n + 1))

theorem ensureLoop_created_eq (supply : Nat → Str) :
    ∀ (ps : List Str) (es : EntryMap) (n : Nat),
      (ensureLoop supply ps es n).2 = n →
      (ensureLoop supply ps es n).1 = es ∧
      ∀ p ∈ ps, normalizePathFragment p = [] ∨
        (lookupD es (normalizePathFragment p)).isSome = true
  | [], es, n, _ => ⟨rfl, by simp⟩
  | p :: ps, es, n, h => by
    rw [ensureLoop] at h ⊢
    by_cases h1 : normalizePathFragment p = []
    · rw [if_pos h1] at h ⊢
      obtain ⟨ha, hb⟩ := ensureLoop_created_eq supply ps es n h
      refine ⟨ha, ?_⟩
      intro q hq
      rcases List.mem_cons.mp hq with hq | hq
      · subst hq
        exact Or.inl h1
      · exact hb q hq
    · rw [if_neg h1] at h ⊢
      cases h2 : lookupD es (normalizePathFragment p) with
      | some e0 =>
        rw [h2] at h
        obtain ⟨ha, hb⟩ := ensureLoop_created_eq supply ps es n h
        refine ⟨ha, ?_⟩
        intro q hq
        rcases List.mem_cons.mp hq with hq | hq
        · subst hq
          right
          rw [h2]
          rfl
        · exact hb q hq
      | none =>
        rw [h2] at h
        exfalso
        have h3 : (ensureLoop supply ps
            (insertD es (normalizePathFragment p)
              ⟨supply n, prettyCatalogLeaf (normalizePathFragment p)⟩) (n + 1)).2 = n := h
        have h4 := ensureLoop_created_le supply ps
          (insertD es (normalizePathFragment p)
            ⟨supply n, prettyCatalogLeaf (normalizePathFragment p)⟩) (n + 1)
        omega

theorem ensureLoop_noop (supply : Nat → Str) :
    ∀ (ps : List Str) (es : EntryMap) (n : Nat),
      (∀ p ∈ ps, normalizePathFragment p = [] ∨
        (lookupD es (normalizePathFragment p)).isSome = true) →
      ensureLoop supply ps es n = (es, n)
  | [], _, _, _ => rfl
  | p :: ps, es, n, h => by
    rw [ensureLoop]
    by_cases h1 : normalizePathFragment p = []
    · rw [if_pos h1]
      exact ensureLoop_noop supply ps es n (fun q hq => h q (by simp [hq]))
    · rw [if_neg h1]
      cases h2 : lookupD es (normalizePathFragment p) with
      | some e0 => exact ensureLoop_noop supply ps es n (fun q hq => h q (by simp [hq]))
      | none =>
        rcases h p (by simp) with hh | hh
        · exact absurd hh h1
        · rw [h2] at hh
          cases hh

theorem ensureCatalogs_created (fs : CatalogFS) (cps : List Str) (supply : Nat → Str) :
    (ensureCatalogs fs cps supply).created
      = (ensureLoop supply (sortStrs cps) (readCatalogFile fs.file).2 0).2 := rfl

theorem ensureCatalogs_uuidMap (fs : CatalogFS) (cps : List Str) (supply : Nat → Str) :
    (ensureCatalogs fs cps supply).uuidMap
      = (ensureLoop supply (sortStrs cps) (readCatalogFile fs.file).2 0).1.map
          fun kv => (kv.1, kv.2.uuid) := rfl

theorem ensureCatalogs_fs (fs : CatalogFS) (cps : List Str) (supply : Nat → Str) :
    (ensureCatalogs fs cps supply).fs
      = (if (ensureLoop supply (sortStrs cps) (readCatalogFile fs.file).2 0).2 > 0
         then writeCatalogFileWithBackup fs (readCatalogFile fs.file).1
           (ensureLoop supply (sortStrs cps) (readCatalogFile fs.file).2 0).1
         else fs) := rfl

/-! ## Claim C4 -/

/-- C4 (amended): `ensure` is idempotent provided the normalization of each
requested path contains no colon and no line-break character (and the uuid
supply is well formed, as `uuid.uuid4()` output is): a second call with the
same path set creates zero new entries, returns the identical path-to-UUID
mapping, and performs no file write; writes occur only in a call that
creates at least one entry, and entries existing before a call keep their
UUID and display name.  (Without the colon/newline proviso the claim fails:
see the counterexample, where a requested path containing a colon is
re-created by every call.) -/
theorem c4_ensure_idempotent (fs : CatalogFS) (ps : List Str) (sup1 sup2 : Nat → Str)
    (hsup : ∀ i, supplyWF (sup1 i))
    (hpath : ∀ p ∈ ps, ':' ∉ normalizePathFragment p ∧
      lineClean (normalizePathFragment p) = true) :
    (ensureCatalogs (ensureCatalogs fs ps sup1).fs ps sup2).created = 0 ∧
    (∀ q, lookupS (ensureCatalogs (ensureCatalogs fs ps sup1).fs ps sup2).uuidMap q
      = lookupS (ensureCatalogs fs ps sup1).uuidMap q) ∧
    (ensureCatalogs (ensureCatalogs fs ps sup1).fs ps sup2).fs
      = (ensureCatalogs fs ps sup1).fs ∧
    ((ensureCatalogs fs ps sup1).created = 0 → (ensureCatalogs fs ps sup1).fs = fs) ∧
    (∀ q e, lookupD (readCatalogFile fs.file).2 q = some e →
      lookupD (readCatalogFile (ensureCatalogs fs ps sup1).fs.file).2 q = some e) := by
  obtain ⟨hW1, hW2, hW3, hW4⟩ := readCatalogFile_WF fs.file
  have hpath' : ∀ p ∈ sortStrs ps, ':' ∉ normalizePathFragment p ∧
      lineClean (normalizePathFragment p) = true :=
    fun p hp => hpath p (mem_sortStrs.mp hp)
  obtain ⟨A, B, C, D, _⟩ :=
    ensureLoop_lemma (sortStrs ps) (readCatalogFile fs.file).2 0 sup1 hsup hW3 hW4 hpath'
  by_cases hc : (ensureLoop sup1 (sortStrs ps) (readCatalogFile fs.file).2 0).2 = 0
  · -- first call created nothing: no write happened
    obtain ⟨hE1, hE2⟩ := ensureLoop_created_eq sup1 (sortStrs ps) _ 0 hc
    have hfs1 : (ensureCatalogs fs ps sup1).fs = fs := by
      rw [ensureCatalogs_fs, hc]
      simp
    have hloop2 : ensureLoop sup2 (sortStrs ps) (readCatalogFile fs.file).2 0
        = ((readCatalogFile fs.file).2, 0) :=
      ensureLoop_noop sup2 (sortStrs ps) _ 0 hE2
    refine ⟨?_, ?_, ?_, fun _ => hfs1, ?_⟩
    · rw [ensureCatalogs_created, hfs1, hloop2]
    · intro q
      rw [ensureCatalogs_uuidMap, ensureCatalogs_uuidMap, hfs1, hloop2, hE1]
    · rw [ensureCatalogs_fs (ensureCatalogs fs ps sup1).fs, hfs1, hloop2]
      simp [hfs1]
    · intro q e h
      rw [hfs1]
      exact h
  · -- first call wrote the merged store
    have hcpos : (ensureLoop sup1 (sortStrs ps) (readCatalogFile fs.file).2 0).2 > 0 :=
      Nat.pos_of_ne_zero hc
    have hfs1 : (ensureCatalogs fs ps sup1).fs
        = writeCatalogFileWithBackup fs (readCatalogFile fs.file).1
            (ensureLoop sup1 (sortStrs ps) (readCatalogFile fs.file).2 0).1 := by
      rw [ensureCatalogs_fs, if_pos hcpos]
    have hfile1 : (ensureCatalogs fs ps sup1).fs.file
        = some (writeCatalogContent (readCatalogFile fs.file).1
            (ensureLoop sup1 (sortStrs ps) (readCatalogFile fs.file).2 0).1) := by
      rw [hfs1]
      rfl
    have hstore : storeWF (readCatalogFile fs.file).1
        (ensureLoop sup1 (sortStrs ps) (readCatalogFile fs.file).2 0).1 := ⟨hW1, hW2, A, B⟩
    have hread1 : readCatalogFile (ensureCatalogs fs ps sup1).fs.file
        = ((readCatalogFile fs.file).1,
           sortPairs (ensureLoop sup1 (sortStrs ps) (readCatalogFile fs.file).2 0).1) := by
      rw [hfile1]
      exact read_writeCatalogContent hstore
    have hperm : ∀ x, lookupD (sortPairs (ensureLoop sup1 (sortStrs ps)
        (readCatalogFile fs.file).2 0).1) x
        = lookupD (ensureLoop sup1 (sortStrs ps) (readCatalogFile fs.file).2 0).1 x :=
      fun x => lookupD_eq_of_perm (sortPairs_perm _) (keysOf_sortPairs_nodup B) x
    have hpresent : ∀ p ∈ sortStrs ps, normalizePathFragment p = [] ∨
        (lookupD (sortPairs (ensureLoop sup1 (sortStrs ps) (readCatalogFile fs.file).2 0).1)
          (normalizePathFragment p)).isSome = true := by
      intro p hp
      rcases D p hp with h | h
      · exact Or.inl h
      · right
        rw [hperm]
        exact h
    have hloop2 : ensureLoop sup2 (sortStrs ps) (readCatalogFile
        (ensureCatalogs fs ps sup1).fs.file).2 0
        = ((readCatalogFile (ensureCatalogs fs ps sup1).fs.file).2, 0) := by
      rw [hread1]
      exact ensureLoop_noop sup2 (sortStrs ps) _ 0 hpresent
    refine ⟨?_, ?_, ?_, fun h0 => absurd h0 hc, ?_⟩
    · rw [ensureCatalogs_created, hloop2]
    · intro q
      rw [ensureCatalogs_uuidMap, ensureCatalogs_uuidMap, hloop2]
      rw [lookupS_map_uuid, lookupS_map_uuid]
      rw [hread1]
      show ((lookupD (sortPairs _) q).map CatEntry.uuid) = _
      rw [hperm]
    · rw [ensureCatalogs_fs (ensureCatalogs fs ps sup1).fs, hloop2]
      simp
    · intro q e h
      rw [hread1]
      show lookupD (sortPairs _) q = some e
      rw [hperm]
      exact C q e h

/-! ## Claim C3 -/

/-- C3 counterexample: the store can be asked to write a pair whose entry
path contains a colon (a catalog root prefix is an arbitrary string, and
`_normalize_path_fragment` does not remove colons); the written line
`uuid:A:B:name` is re-parsed with path `A`, so the loaded mapping no longer
contains the path `A:B` — the round trip fails for this store-written
pair. -/
theorem c3_claim_counterexample :
    (ensureCatalogs ⟨none, none⟩ ["A:B".data]
        (fun _ => "11111111-2222-3333-4444-555555555555".data)).fs.file
      = some (writeCatalogContent defaultHeaderLines
          [("A:B".data, ⟨"11111111-2222-3333-4444-555555555555".data, "A:B".data⟩)]) ∧
    lookupD [("A:B".data, ⟨"11111111-2222-3333-4444-555555555555".data, "A:B".data⟩)]
        "A:B".data
      = some ⟨"11111111-2222-3333-4444-555555555555".data, "A:B".data⟩ ∧
    lookupD (readCatalogFile (some (writeCatalogContent defaultHeaderLines
        [("A:B".data, ⟨"11111111-2222-3333-4444-555555555555".data, "A:B".data⟩)]))).2
        "A:B".data
      = none := by
  refine ⟨by decide, by decide, by decide⟩

/-- C3 (amended): for every store state satisfying the reachable-store
invariant (headers strip-invariant, newline-free, `#`/`VERSION `-prefixed
with at least one `VERSION ` line; entry paths and uuids colon-free, all
fields newline-free, formatted lines strip-invariant and not header-shaped),
write followed by load reproduces the same header lines and the same
path-to-(uuid, display-name) mapping — for any insertion order of the
entries, since the entry list is quantified in arbitrary order. -/
theorem c3_roundtrip {hs : List Str} {es : EntryMap} (hwf : storeWF hs es) :
    (readCatalogFile (some (writeCatalogContent hs es))).1 = hs ∧
    ∀ q, lookupD (readCatalogFile (some (writeCatalogContent hs es))).2 q = lookupD es q := by
  rw [read_writeCatalogContent hwf]
  exact ⟨rfl, fun q =>
    lookupD_eq_of_perm (sortPairs_perm es) (keysOf_sortPairs_nodup hwf.2.2.2) q⟩

theorem c3_roundtrip_witness :
    storeWF defaultHeaderLines
      [("Props/Chairs".data,
        ⟨"11111111-2222-3333-4444-555555555555".data, "Chairs".data⟩)] ∧
    (readCatalogFile (some (writeCatalogContent defaultHeaderLines
      [("Props/Chairs".data,
        ⟨"11111111-2222-3333-4444-555555555555".data, "Chairs".data⟩)]))).1
      = defaultHeaderLines ∧
    lookupD (readCatalogFile (some (writeCatalogContent defaultHeaderLines
      [("Props/Chairs".data,
        ⟨"11111111-2222-3333-4444-555555555555".data, "Chairs".data⟩)]))).2
        "Props/Chairs".data
      = lookupD [("Props/Chairs".data,
          ⟨"11111111-2222-3333-4444-555555555555".data, "Chairs".data⟩)]
          "Props/Chairs".data :=
  ⟨by decide, (c3_roundtrip (by decide)).1, (c3_roundtrip (by decide)).2 "Props/Chairs".data⟩

theorem c4_ensure_idempotent_witness :
    (∀ i : Nat, supplyWF ((fun _ : Nat =>
      "11111111-2222-3333-4444-555555555555".data) i)) ∧
    (∀ p ∈ ["Props/Chairs".data], ':' ∉ normalizePathFragment p ∧
      lineClean (normalizePathFragment p) = true) ∧
    (ensureCatalogs (ensureCatalogs ⟨none, none⟩ ["Props/Chairs".data]
        (fun _ => "11111111-2222-3333-4444-555555555555".data)).fs
        ["Props/Chairs".data]
        (fun _ => "99999999-8888-7777-6666-555555555555".data)).created = 0 :=
  ⟨fun _ => (by decide : supplyWF "11111111-2222-3333-4444-555555555555".data), by decide,
   (c4_ensure_idempotent ⟨none, none⟩ ["Props/Chairs".data]
      (fun _ => "11111111-2222-3333-4444-555555555555".data)
      (fun _ => "99999999-8888-7777-6666-555555555555".data)
      (fun _ => (by decide : supplyWF "11111111-2222-3333-4444-555555555555".data))
      (by decide)).1⟩

/-! ## Claims C6 and C7 -/

theorem mem_of_getLast?_eq {l : Str} {c : Char} (h : l.getLast? = some c) : c ∈ l := by
  rw [← List.head?_reverse] at h
  have : c ∈ l.reverse := by
    cases hr : l.reverse with
    | nil => rw [hr] at h; cases h
    | cons a t =>
      rw [hr] at h
      cases h
      simp
  simpa using this

theorem entryLine_getLast_ne_nl {p : Str} {e : CatEntry} (hw : lineClean e.name = true) :
    (entryLine p e).getLast? ≠ some '\n' := by
  cases hn : e.name with
  | nil =>
    have hg : (entryLine p e).getLast? = some ':' := by
      show (e.uuid ++ ':' :: (p ++ ':' :: e.name)).getLast? = some ':'
      rw [hn]
      rw [getLast?_append_of_ne_nil (by simp)]
      rw [show (':' :: (p ++ [':'])) = [':'] ++ (p ++ [':']) from rfl]
      rw [getLast?_append_of_ne_nil (by simp)]
      rw [getLast?_append_of_ne_nil (by simp)]
      rfl
    rw [hg]
    decide
  | cons a t =>
    have hg : (entryLine p e).getLast? = e.name.getLast? := by
      show (e.uuid ++ ':' :: (p ++ ':' :: e.name)).getLast? = _
      rw [getLast?_append_of_ne_nil (by simp)]
      rw [show (':' :: (p ++ ':' :: e.name)) = [':'] ++ (p ++ ':' :: e.name) from rfl]
      rw [getLast?_append_of_ne_nil (by simp)]
      rw [getLast?_append_of_ne_nil (by simp)]
      rw [show (':' :: e.name) = [':'] ++ e.name from rfl]
      rw [getLast?_append_of_ne_nil (by rw [hn]; simp)]
    rw [hg]
    intro hl
    have hmem := mem_of_getLast?_eq hl
    have hcl := hw
    rw [lineClean, List.all_eq_true] at hcl
    have := hcl '\n' hmem
    simp at this

theorem joinNL_getLast? :
    ∀ (A : List Str) (x : Str), x ≠ [] → (joinNL (A ++ [x])).getLast? = x.getLast?
  | [], x, _ => rfl
  | a :: A, x, hx => by
    have hih := joinNL_getLast? A x hx
    have hJne : joinNL (A ++ [x]) ≠ [] := by
      intro hnil
      rw [hnil] at hih
      cases hg : x.getLast? with
      | none =>
        rw [List.getLast?_eq_none_iff] at hg
        exact hx hg
      | some d =>
        rw [hg] at hih
        cases hih
    cases hA : A ++ [x] with
    | nil => simp at hA
    | cons b B =>
      show (joinNL (a :: (A ++ [x]))).getLast? = x.getLast?
      rw [hA]
      show (a ++ '\n' :: joinNL (b :: B)).getLast? = x.getLast?
      rw [getLast?_append_of_ne_nil (by simp)]
      rw [show ('\n' :: joinNL (b :: B)) = ['\n'] ++ joinNL (b :: B) from rfl]
      rw [getLast?_append_of_ne_nil (by rw [← hA]; exact hJne)]
      rw [← hA]
      exact hih

theorem length_insertD_of_fresh {es : EntryMap} {k : Str} {v : CatEntry}
    (h : lookupD es k = none) : (insertD es k v).length = es.length + 1 := by
  rw [insertD_of_not_mem v (lookupD_eq_none_iff.mp h)]
  simp

theorem ensureLoop_length (supply : Nat → Str) :
    ∀ (ps : List Str) (es : EntryMap) (n : Nat),
      (ensureLoop supply ps es n).1.length + n = es.length + (ensureLoop supply ps es n).2
  | [], _, _ => rfl
  | p :: ps, es, n => by
    rw [ensureLoop]
    by_cases h1 : normalizePathFragment p = []
    · rw [if_pos h1]
      exact ensureLoop_length supply ps es n
    · rw [if_neg h1]
      cases h2 : lookupD es (normalizePathFragment p) with
      | some e0 => exact ensureLoop_length supply ps es n
      | none =>
        have hih := ensureLoop_length supply ps
          (insertD es (normalizePathFragment p)
            ⟨supply n, prettyCatalogLeaf (normalizePathFragment p)⟩) (n + 1)
        rw [length_insertD_of_fresh h2] at hih
        show (ensureLoop supply ps (insertD es (normalizePathFragment p)
            ⟨supply n, prettyCatalogLeaf (normalizePathFragment p)⟩) (n + 1)).1.length + n
          = es.length + (ensureLoop supply ps (insertD es (normalizePathFragment p)
            ⟨supply n, prettyCatalogLeaf (normalizePathFragment p)⟩) (n + 1)).2
        omega

theorem ensureLoop_lookup_mono (supply : Nat → Str) :
    ∀ (ps : List Str) (es : EntryMap) (n : Nat) (q : Str) (e : CatEntry),
      lookupD es q = some e → lookupD (ensureLoop supply ps es n).1 q = some e
  | [], _, _, _, _, h => h
  | p :: ps, es, n, q, e, h => by
    rw [ensureLoop]
    by_cases h1 : normalizePathFragment p = []
    · rw [if_pos h1]
      exact ensureLoop_lookup_mono supply ps es n q e h
    · rw [if_neg h1]
      cases h2 : lookupD es (normalizePathFragment p) with
      | some e0 => exact ensureLoop_lookup_mono supply ps es n q e h
      | none =>
        apply ensureLoop_lookup_mono supply ps _ (n + 1) q e
        rw [lookupD_insertD]
        by_cases hq : q = normalizePathFragment p
        · rw [hq, h2] at h
          cases h
        · rw [if_neg hq]
          exact h

theorem names_clean_insert {es : EntryMap} {v u : Str}
    (h : ∀ pe ∈ es, lineClean pe.2.name = true) :
    ∀ pe ∈ insertD es v ⟨u, prettyCatalogLeaf v⟩, lineClean pe.2.name = true := by
  intro pe hpe
  rcases mem_insertD_of_mem hpe with hpe2 | hpe2
  · subst hpe2
    exact lineClean_prettyCatalogLeaf v
  · exact h pe hpe2

theorem ensureLoop_names_clean (supply : Nat → Str) :
    ∀ (ps : List Str) (es : EntryMap) (n : Nat),
      (∀ pe ∈ es, lineClean pe.2.name = true) →
      ∀ pe ∈ (ensureLoop supply ps es n).1, lineClean pe.2.name = true
  | [], _, _, h => h
  | p :: ps, es, n, h => by
    rw [ensureLoop]
    by_cases h1 : normalizePathFragment p = []
    · rw [if_pos h1]
      exact ensureLoop_names_clean supply ps es n h
    · rw [if_neg h1]
      cases h2 : lookupD es (normalizePathFragment p) with
      | some e0 => exact ensureLoop_names_clean supply ps es n h
      | none =>
        exact ensureLoop_names_clean supply ps _ (n + 1) (names_clean_insert h)

/-- C6: every catalog file the store writes is, verbatim: the header lines
found at load time (each rstripped — preserved even when unknown), followed
by the entries sorted lexicographically (by code point) on their path, each
formatted `uuid:path:name`, all joined by single `\n` characters (the file
is opened with `newline="\n"`, so line endings are LF only on every
platform) with exactly one trailing newline; entries present at load time
are still present in the written store. -/
theorem c6_write_invariant (fs : CatalogFS) (cps : List Str) (supply : Nat → Str)
    (hw : (ensureCatalogs fs cps supply).created > 0) :
    ∃ es1 body,
      (ensureCatalogs fs cps supply).fs.file = some (body ++ ['\n']) ∧
      body = joinNL ((readCatalogFile fs.file).1.map pyRStrip
        ++ (sortPairs es1).map fun kv => entryLine kv.1 kv.2) ∧
      List.Sorted leKey (sortPairs es1) ∧
      body.getLast? ≠ some '\n' ∧
      (∀ q e, lookupD (readCatalogFile fs.file).2 q = some e → lookupD es1 q = some e) := by
  have hw2 : (ensureLoop supply (sortStrs cps) (readCatalogFile fs.file).2 0).2 > 0 := hw
  refine ⟨(ensureLoop supply (sortStrs cps) (readCatalogFile fs.file).2 0).1,
    joinNL ((readCatalogFile fs.file).1.map pyRStrip
      ++ (sortPairs (ensureLoop supply (sortStrs cps)
            (readCatalogFile fs.file).2 0).1).map fun kv => entryLine kv.1 kv.2),
    ?_, rfl, sortPairs_sorted _, ?_, ?_⟩
  · rw [ensureCatalogs_fs, if_pos hw2]
    rfl
  · -- exactly one trailing newline: the last written line does not end in a break
    have hlen := ensureLoop_length supply (sortStrs cps) (readCatalogFile fs.file).2 0
    have hne : (ensureLoop supply (sortStrs cps) (readCatalogFile fs.file).2 0).1 ≠ [] := by
      intro hnil
      rw [hnil] at hlen
      simp at hlen
      omega
    have hnames := ensureLoop_names_clean supply (sortStrs cps) (readCatalogFile fs.file).2 0
      (fun pe hpe => ((readCatalogFile_WF fs.file).2.2.1 pe hpe).2.2.2.2.1)
    set eLines := (sortPairs (ensureLoop supply (sortStrs cps)
        (readCatalogFile fs.file).2 0).1).map fun kv => entryLine kv.1 kv.2 with heL
    have heLne : eLines ≠ [] := by
      rw [heL]
      intro hnil
      rw [List.map_eq_nil_iff] at hnil
      have := (sortPairs_perm (ensureLoop supply (sortStrs cps)
        (readCatalogFile fs.file).2 0).1).length_eq
      rw [hnil] at this
      exact hne (List.eq_nil_of_length_eq_zero this.symm)
    have hsplit := List.dropLast_append_getLast heLne
    set elast := eLines.getLast heLne with helast
    have hmem : elast ∈ eLines := List.getLast_mem heLne
    obtain ⟨kv, hkv, hkl⟩ := List.mem_map.mp (by rw [heL] at hmem; exact hmem)
    have hkvm : kv ∈ (ensureLoop supply (sortStrs cps) (readCatalogFile fs.file).2 0).1 :=
      (sortPairs_perm _).mem_iff.mp hkv
    have hclean : lineClean kv.2.name = true := hnames kv hkvm
    have hre : (readCatalogFile fs.file).1.map pyRStrip ++ eLines
        = ((readCatalogFile fs.file).1.map pyRStrip ++ eLines.dropLast) ++ [elast] := by
      conv_lhs => rw [← hsplit]
      rw [List.append_assoc]
    rw [hre, joinNL_getLast? _ elast (by rw [← hkl]; exact entryLine_ne_nil kv.1 kv.2)]
    rw [← hkl]
    exact entryLine_getLast_ne_nl hclean
  · exact fun q e h => ensureLoop_lookup_mono supply (sortStrs cps) _ 0 q e h

theorem c6_write_invariant_witness :
    (ensureCatalogs ⟨none, none⟩ ["Props/Chairs".data]
      (fun _ => "11111111-2222-3333-4444-555555555555".data)).created > 0 ∧
    (∃ es1 body,
      (ensureCatalogs ⟨none, none⟩ ["Props/Chairs".data]
        (fun _ => "11111111-2222-3333-4444-555555555555".data)).fs.file
        = some (body ++ ['\n']) ∧
      body = joinNL ((readCatalogFile (none : Option Str)).1.map pyRStrip
        ++ (sortPairs es1).map fun kv => entryLine kv.1 kv.2) ∧
      List.Sorted leKey (sortPairs es1) ∧
      body.getLast? ≠ some '\n' ∧
      (∀ q e, lookupD (readCatalogFile (none : Option Str)).2 q = some e →
        lookupD es1 q = some e)) :=
  ⟨by decide, c6_write_invariant ⟨none, none⟩ ["Props/Chairs".data]
    (fun _ => "11111111-2222-3333-4444-555555555555".data) (by decide)⟩

/-- C7: whenever the store writes the index file (a write happens exactly in
a call that creates at least one entry) and the destination file already
exists, the pre-write content is first copied over the `.bak` sibling —
last backup wins, a single generation; after the write the `.bak` side
holds exactly the pre-write catalog content.  When the destination did not
exist, the backup is left untouched. -/
theorem c7_backup (fs : CatalogFS) (cps : List Str) (supply : Nat → Str)
    (hw : (ensureCatalogs fs cps supply).created > 0) :
    (∀ c, fs.file = some c → (ensureCatalogs fs cps supply).fs.bak = some c) ∧
    (fs.file = none → (ensureCatalogs fs cps supply).fs.bak = fs.bak) := by
  have hw2 : (ensureLoop supply (sortStrs cps) (readCatalogFile fs.file).2 0).2 > 0 := hw
  constructor
  · intro c hc
    rw [ensureCatalogs_fs, if_pos hw2]
    show (match fs.file with
          | some c2 => some c2
          | none => fs.bak) = some c
    rw [hc]
  · intro hc
    rw [ensureCatalogs_fs, if_pos hw2]
    show (match fs.file with
          | some c2 => some c2
          | none => fs.bak) = fs.bak
    rw [hc]

theorem c7_backup_witness :
    (ensureCatalogs ⟨some "VERSION 1\n".data, none⟩ ["Props/Chairs".data]
      (fun _ => "11111111-2222-3333-4444-555555555555".data)).created > 0 ∧
    (ensureCatalogs ⟨some "VERSION 1\n".data, none⟩ ["Props/Chairs".data]
      (fun _ => "11111111-2222-3333-4444-555555555555".data)).fs.bak
      = some "VERSION 1\n".data :=
  ⟨by decide,
   (c7_backup ⟨some "VERSION 1\n".data, none⟩ ["Props/Chairs".data]
      (fun _ => "11111111-2222-3333-4444-555555555555".data) (by decide)).1
      "VERSION 1\n".data rfl⟩

/-- C4 counterexample: requesting the colon-containing path `A:B` twice in a
row mints a fresh entry both times (the claim as stated predicts zero
creations on the second call), because the written line `uuid:A:B:name`
reloads under the path `A`. -/
theorem c4_claim_counterexample :
    (ensureCatalogs ⟨none, none⟩ ["A:B".data]
      (fun _ => "11111111-2222-3333-4444-555555555555".data)).created = 1 ∧
    (ensureCatalogs (ensureCatalogs ⟨none, none⟩ ["A:B".data]
        (fun _ => "11111111-2222-3333-4444-555555555555".data)).fs
        ["A:B".data] (fun _ => "99999999-8888-7777-6666-555555555555".data)).created
      = 1 := by
  exact ⟨by decide, by decide⟩

/-! ## Claim C9 -/

theorem planStep_of_linked {prefs : Prefs} {root : Str} {db : Datablock}
    (h : db.isLinked = true) : planStep prefs root db = .linked := by
  unfold planStep
  rw [if_pos h]

theorem planStep_external_iff {prefs : Prefs} {root : Str} {db : Datablock}
    (hmode : prefs.classification_mode ≠ "NAME_PREFIX".data)
    (hnl : db.isLinked = false) :
    planStep prefs root db = .external ↔ externalCond root db = true := by
  unfold planStep externalCond
  rw [if_neg (by rw [hnl]; exact Bool.false_ne_true), if_neg hmode]
  cases hsrc : db.sourceDir with
  | none => simp
  | some d =>
    dsimp only
    by_cases hrel : List.isPrefixOf "..".data (relpathM d root)
    · rw [if_pos hrel]
      simp [hrel]
    · rw [if_neg hrel]
      constructor
      · intro h
        cases h
      · intro h
        exact absurd h hrel

theorem planStep_keep_src {prefs : Prefs} {root : Str} {db : Datablock} {p : Str}
    (hmode : prefs.classification_mode ≠ "NAME_PREFIX".data)
    (hstep : planStep prefs root db = .keep p) :
    db.isLinked = false ∧ ∃ d, db.sourceDir = some d ∧
      List.isPrefixOf "..".data (relpathM d root) = false := by
  unfold planStep at hstep
  by_cases hl : db.isLinked
  · rw [if_pos hl] at hstep
    cases hstep
  · rw [if_neg hl, if_neg hmode] at hstep
    refine ⟨by simpa using hl, ?_⟩
    cases hsrc : db.sourceDir with
    | none =>
      rw [hsrc] at hstep
      cases hstep
    | some d =>
      rw [hsrc] at hstep
      dsimp only at hstep
      by_cases hrel : List.isPrefixOf "..".data (relpathM d root)
      · rw [if_pos hrel] at hstep
        cases hstep
      · exact ⟨d, rfl, Bool.eq_false_iff.mpr hrel⟩

theorem buildPlanAux_spec (prefs : Prefs) (root : Str)
    (hmode : prefs.classification_mode ≠ "NAME_PREFIX".data) :
    ∀ (items : List Datablock) (idx : Nat),
      (buildPlanAux prefs root items idx).skippedExternal
        = (items.filter fun db => !db.isLinked && externalCond root db).length ∧
      ∀ ip ∈ (buildPlanAux prefs root items idx).plan,
        ∃ j db, ip.1 = idx + j ∧ items[j]? = some db ∧ db.isLinked = false ∧
          ∃ d, db.sourceDir = some d ∧
            List.isPrefixOf "..".data (relpathM d root) = false
  | [], idx => by
    constructor
    · rfl
    · intro ip hip
      cases hip
  | db :: rest, idx => by
    obtain ⟨IH1, IH2⟩ := buildPlanAux_spec prefs root hmode rest (idx + 1)
    rw [buildPlanAux]
    cases hstep : planStep prefs root db with
    | linked =>
      have hl : db.isLinked = true := by
        by_cases h : db.isLinked
        · exact h
        · unfold planStep at hstep
          rw [if_neg h, if_neg hmode] at hstep
          cases hsrc : db.sourceDir with
          | none =>
            rw [hsrc] at hstep
            cases hstep
          | some d =>
            rw [hsrc] at hstep
            dsimp only at hstep
            by_cases hrel : List.isPrefixOf "..".data (relpathM d root)
            · rw [if_pos hrel] at hstep
              cases hstep
            · rw [if_neg hrel] at hstep
              cases hstep
      constructor
      · show (buildPlanAux prefs root rest (idx + 1)).skippedExternal = _
        rw [List.filter_cons_of_neg (by simp [hl])]
        exact IH1
      · intro ip hip
        obtain ⟨j, db2, hj, hget, hrest⟩ := IH2 ip hip
        exact ⟨j + 1, db2, by omega, by simpa using hget, hrest⟩
    | external =>
      have hl : db.isLinked = false := by
        by_cases h : db.isLinked
        · rw [planStep_of_linked h] at hstep
          cases hstep
        · simpa using h
      have hext : externalCond root db = true :=
        (planStep_external_iff hmode hl).mp hstep
      constructor
      · show (buildPlanAux prefs root rest (idx + 1)).skippedExternal + 1 = _
        rw [List.filter_cons_of_pos (by rw [hl, hext]; rfl)]
        rw [IH1]
        rfl
      · intro ip hip
        obtain ⟨j, db2, hj, hget, hrest⟩ := IH2 ip hip
        exact ⟨j + 1, db2, by omega, by simpa using hget, hrest⟩
    | keep p =>
      obtain ⟨hl, d, hd, hrel⟩ := planStep_keep_src hmode hstep
      constructor
      · show (buildPlanAux prefs root rest (idx + 1)).skippedExternal = _
        rw [List.filter_cons_of_neg (by rw [hl]; simp [externalCond, hd, hrel])]
        exact IH1
      · intro ip hip
        rcases List.mem_cons.mp hip with hip | hip
        · subst hip
          exact ⟨0, db, by omega, by simp, hl, d, hd, hrel⟩
        · obtain ⟨j, db2, hj, hget, hrest⟩ := IH2 ip hip
          exact ⟨j + 1, db2, by omega, by simpa using hget, hrest⟩

/-- C9: in relative-folder mode, the skipped-external count is exactly the
number of non-linked items that either have no source directory or whose
relative path from the library root starts with `..` (so an item outside
the root — e.g. in a sibling directory — is always counted there and never
planned), and every planned item is a non-linked item with a source
directory whose relative path does not start with `..` (items inside the
root are never counted as skipped-external). -/
theorem c9_relative_escaping_root (prefs : Prefs) (root : Str) (items : List Datablock)
    (hmode : prefs.classification_mode = "RELATIVE_FOLDER".data) :
    (buildPlan prefs root items).skippedExternal
      = (items.filter fun db => !db.isLinked && externalCond root db).length ∧
    ∀ ip ∈ (buildPlan prefs root items).plan,
      ∃ j db, ip.1 = j ∧ items[j]? = some db ∧ db.isLinked = false ∧
        ∃ d, db.sourceDir = some d ∧
          List.isPrefixOf "..".data (relpathM d root) = false := by
  have hmode2 : prefs.classification_mode ≠ "NAME_PREFIX".data := by
    rw [hmode]
    decide
  obtain ⟨h1, h2⟩ := buildPlanAux_spec prefs root hmode2 items 0
  refine ⟨h1, ?_⟩
  intro ip hip
  obtain ⟨j, db, hj, hget, hrest⟩ := h2 ip hip
  exact ⟨j, db, by omega, hget, hrest⟩

theorem c9_relative_escaping_root_witness :
    (buildPlan prefsC9 rootC9 itemsC9).skippedExternal
      = (itemsC9.filter fun db => !db.isLinked && externalCond rootC9 db).length ∧
    ∀ ip ∈ (buildPlan prefsC9 rootC9 itemsC9).plan,
      ∃ j db, ip.1 = j ∧ itemsC9[j]? = some db ∧ db.isLinked = false ∧
        ∃ d, db.sourceDir = some d ∧
          List.isPrefixOf "..".data (relpathM d rootC9) = false :=
  c9_relative_escaping_root prefsC9 rootC9 itemsC9 (by decide)

/-! ## Claims C1 and C2: the apply staleness guard and state reset -/

theorem applyExecute_not_finished_of_not_ready (h : Host) (st : RuntimeState)
    (fs : CatalogFS) (supply : Nat → Str) (hnr : st.previewReady = false) :
    (applyExecute h st fs supply).1 ≠ OpResult.finished := by
  unfold applyExecute
  cases h.resolvedRoot with
  | none =>
    dsimp only
    intro hc
    cases hc
  | some rs =>
    dsimp only
    rw [if_pos hnr]
    intro hc
    cases hc

theorem applyExecute_finished_reset (h : Host) (st : RuntimeState)
    (fs : CatalogFS) (supply : Nat → Str)
    (hfin : (applyExecute h st fs supply).1 = OpResult.finished) :
    (applyExecute h st fs supply).2.1.previewReady = false ∧
    (applyExecute h st fs supply).2.1.previewSignature = [] := by
  revert hfin
  unfold applyExecute
  cases h.resolvedRoot with
  | none =>
    dsimp only
    intro hc
    cases hc
  | some rs =>
    dsimp only
    split
    next =>
      intro hc
      cases hc
    next =>
      split
      next =>
        intro hc
        cases hc
      next =>
        split
        next =>
          intro hc
          cases hc
        next =>
          split
          next =>
            intro hc
            cases hc
          next =>
            intro _
            exact ⟨rfl, rfl⟩

/-- C1: if apply is invoked while the root resolves but either no preview
has been recorded (`preview_ready` false) or the plan signature recomputed
at apply time differs from the one stored by the last preview, then apply
cancels with one of the two staleness messages, and the runtime state, the
catalog file (and its backup) and every item are left exactly as they were:
no write and no assignment happens. -/
theorem c1_staleness_guard (h : Host) (st : RuntimeState) (fs : CatalogFS)
    (supply : Nat → Str) (rs : Str × Str) (hroot : h.resolvedRoot = some rs)
    (hstale : st.previewReady = false ∨
      st.previewSignature ≠ planSignature h.prefs rs.1
        (planPairs h.items (buildPlan h.prefs rs.1 h.items).plan)) :
    ∃ m, applyExecute h st fs supply = (.cancelled m, st, fs, h.items) ∧
      (m = msgRunPreviewFirst ∨ m = msgOptionsChanged) := by
  unfold applyExecute
  rw [hroot]
  dsimp only
  rcases hstale with h1 | h2
  · rw [if_pos h1]
    exact ⟨msgRunPreviewFirst, rfl, Or.inl rfl⟩
  · by_cases h1 : st.previewReady = false
    · rw [if_pos h1]
      exact ⟨msgRunPreviewFirst, rfl, Or.inl rfl⟩
    · rw [if_neg h1, if_pos h2]
      exact ⟨msgOptionsChanged, rfl, Or.inr rfl⟩

theorem c1_staleness_guard_witness :
    ∃ m, applyExecute hostAC initialRuntimeState ⟨none, none⟩ supplyU
        = (.cancelled m, initialRuntimeState, ⟨none, none⟩, hostAC.items) ∧
      (m = msgRunPreviewFirst ∨ m = msgOptionsChanged) :=
  c1_staleness_guard hostAC initialRuntimeState ⟨none, none⟩ supplyU
    ("/lib/assets".data, "preferences".data) rfl (Or.inl rfl)

theorem runTrace_head (st : RuntimeState) (fs : CatalogFS) :
    ∀ ops : List CatOp, (runTrace st fs ops)[0]? = (ops[0]?).map (stepOp st fs)
  | [] => by simp [runTrace]
  | _ :: _ => by
    rw [runTrace]
    simp

theorem runTrace_succ : ∀ (ops : List CatOp) (st : RuntimeState) (fs : CatalogFS)
    (i : Nat) (x : OpResult × RuntimeState × CatalogFS),
    (runTrace st fs ops)[i]? = some x →
    (runTrace st fs ops)[i + 1]? = (ops[i + 1]?).map (stepOp x.2.1 x.2.2)
  | [], _, _, i, x => by
    intro hx
    simp [runTrace] at hx
  | op :: rest, st, fs, 0, x => by
    intro hx
    rw [runTrace] at hx ⊢
    simp only [List.getElem?_cons_zero, Option.some.injEq] at hx
    simp only [List.getElem?_cons_succ]
    rw [hx, runTrace_head]
  | op :: rest, st, fs, i + 1, x => by
    intro hx
    rw [runTrace] at hx ⊢
    simp only [List.getElem?_cons_succ] at hx ⊢
    exact runTrace_succ rest (stepOp st fs op).2.1 (stepOp st fs op).2.2 i x hx

theorem runTrace_apply_reset : ∀ (ops : List CatOp) (st : RuntimeState) (fs : CatalogFS)
    (i : Nat) (h1 : Host) (s1 : Nat → Str) (x : OpResult × RuntimeState × CatalogFS),
    ops[i]? = some (.apply h1 s1) →
    (runTrace st fs ops)[i]? = some x →
    x.1 = OpResult.finished →
    x.2.1.previewReady = false ∧ x.2.1.previewSignature = []
  | [], _, _, i, _, _, _ => by
    intro hop _ _
    simp at hop
  | op :: rest, st, fs, 0, h1, s1, x => by
    intro hop hx hfin
    simp only [List.getElem?_cons_zero, Option.some.injEq] at hop
    rw [runTrace] at hx
    simp only [List.getElem?_cons_zero, Option.some.injEq] at hx
    subst hop
    subst hx
    have hfin2 : (applyExecute h1 st fs s1).1 = OpResult.finished := hfin
    exact applyExecute_finished_reset h1 st fs s1 hfin2
  | op :: rest, st, fs, i + 1, h1, s1, x => by
    intro hop hx hfin
    simp only [List.getElem?_cons_succ] at hop
    rw [runTrace] at hx
    simp only [List.getElem?_cons_succ] at hx
    exact runTrace_apply_reset rest (stepOp st fs op).2.1 (stepOp st fs op).2.2
      i h1 s1 x hop hx hfin

/-- C2: in any sequence of preview/apply invocations, a successful apply at
step i leaves the runtime state non-Previewed — `preview_ready` false and
the stored signature cleared — and therefore an apply issued as the very
next step, with any host state whatsoever, does not finish: two consecutive
successful applies never occur without a preview between them. -/
theorem c2_no_consecutive_applies (st : RuntimeState) (fs : CatalogFS)
    (ops : List CatOp) (i : Nat) (h1 h2 : Host) (s1 s2 : Nat → Str)
    (hop1 : ops[i]? = some (.apply h1 s1))
    (hop2 : ops[i + 1]? = some (.apply h2 s2))
    (hfin : ((runTrace st fs ops)[i]?).map Prod.fst = some OpResult.finished) :
    ((runTrace st fs ops)[i]?).map
        (fun x => (x.2.1.previewReady, x.2.1.previewSignature)) = some (false, []) ∧
    ((runTrace st fs ops)[i + 1]?).map Prod.fst ≠ some OpResult.finished := by
  cases hx : (runTrace st fs ops)[i]? with
  | none =>
    rw [hx] at hfin
    cases hfin
  | some x =>
    rw [hx] at hfin
    have hfin2 : x.1 = OpResult.finished := by
      simpa using hfin
    obtain ⟨hready, hsig⟩ := runTrace_apply_reset ops st fs i h1 s1 x hop1 hx hfin2
    constructor
    · simp [hready, hsig]
    · rw [runTrace_succ ops st fs i x hx, hop2]
      intro hc
      have hc2 : (stepOp x.2.1 x.2.2 (CatOp.apply h2 s2)).1 = OpResult.finished := by
        simpa using hc
      exact applyExecute_not_finished_of_not_ready h2 x.2.1 x.2.2 s2 hready hc2

theorem c2_no_consecutive_applies_witness :
    ((runTrace initialRuntimeState ⟨none, none⟩ opsC2)[1]?).map
        (fun x => (x.2.1.previewReady, x.2.1.previewSignature)) = some (false, []) ∧
    ((runTrace initialRuntimeState ⟨none, none⟩ opsC2)[1 + 1]?).map Prod.fst
      ≠ some OpResult.finished :=
  c2_no_consecutive_applies initialRuntimeState ⟨none, none⟩ opsC2 1
    hostAC hostAC supplyU supplyU rfl rfl (by decide)

/-! ## Claim C10 -/

/-- C10 is refuted by this run: with catalog root prefix `"a /"` the plan
assigns the path `"a "`, which is not a fixed point of path normalization
(`strip()` runs before `strip("/")`, so the slash-strip can expose trailing
whitespace); ensure keys the minted entry under the re-normalized path
`"a"`, so the returned map has no binding for the planned path, the
`uuid_map[catalog_path]` lookup in apply raises an uncaught `KeyError`, and
it does so after the catalog file has already been written. -/
theorem c10_uuid_lookup_partial :
    (buildPlan prefsC10 "/lib/assets".data [itemC10]).plan = [(0, "a ".data)] ∧
    normalizePathFragment "a ".data ≠ "a ".data ∧
    lookupS (ensureCatalogs ⟨none, none⟩ ["a ".data] supplyU).uuidMap "a ".data = none ∧
    (applyExecute hostC10 (previewExecute hostC10 initialRuntimeState).2
        ⟨none, none⟩ supplyU).1 = OpResult.raised ∧
    (applyExecute hostC10 (previewExecute hostC10 initialRuntimeState).2
        ⟨none, none⟩ supplyU).2.2.1.file ≠ none :=
  ⟨by decide, by decide, by decide, by decide, by decide⟩

/-! ## Claim C8: collapseBy splicing and the sanitizer bridge -/

theorem flagAfter_append (p : Char → Bool) (xs : Str) (c : Char) (b : Bool) :
    flagAfter p (xs ++ [c]) b = p c := by
  unfold flagAfter
  rw [List.foldl_append]
  rfl

theorem collapseBy_append (p : Char → Bool) (rep : Char) (ys : Str) (xs : Str) :
    ∀ b, collapseBy p rep (xs ++ ys) b
      = collapseBy p rep xs b ++ collapseBy p rep ys (flagAfter p xs b) := by
  induction xs with
  | nil =>
    intro b
    rfl
  | cons c cs IH =>
    intro b
    rw [List.cons_append, collapseBy, collapseBy]
    have hfa : flagAfter p (c :: cs) b = flagAfter p cs (p c) := rfl
    rw [hfa]
    by_cases hc : p c
    · rw [if_pos hc, if_pos hc, hc]
      cases b
      · show rep :: collapseBy p rep (cs ++ ys) true
          = (rep :: collapseBy p rep cs true) ++ collapseBy p rep ys (flagAfter p cs true)
        rw [List.cons_append, IH true]
      · exact IH true
    · have hc2 : p c = false := Bool.eq_false_iff.mpr hc
      rw [if_neg hc, if_neg hc, hc2, List.cons_append, IH false]

theorem collapseBy_all_p (p : Char → Bool) (rep : Char) :
    ∀ {suf : Str}, suf.all p = true →
      collapseBy p rep suf true = [] ∧
      collapseBy p rep suf false = if suf = [] then [] else [rep]
  | [], _ => ⟨rfl, rfl⟩
  | c :: cs, h => by
    rw [List.all_cons, Bool.and_eq_true] at h
    have IH := collapseBy_all_p p rep h.2
    constructor
    · rw [collapseBy, if_pos h.1]
      show collapseBy p rep cs true = []
      exact IH.1
    · rw [collapseBy, if_pos h.1]
      show rep :: collapseBy p rep cs true = _
      rw [IH.1]
      simp

theorem collapseBy_flag_irrel (p : Char → Bool) (rep : Char) :
    ∀ {m : Str}, (∀ c, m.head? = some c → p c = false) →
      collapseBy p rep m true = collapseBy p rep m false
  | [], _ => rfl
  | c :: cs, h => by
    have hc : p c = false := h c rfl
    rw [collapseBy, collapseBy, if_neg (by simp [hc]), if_neg (by simp [hc])]

theorem lstripBy_collapseBy_underscore (x : Str) :
    lstripBy (fun c => c = '_') (collapseBy (fun c => c = '_') '_' x true)
      = lstripBy (fun c => c = '_') (collapseBy (fun c => c = '_') '_' x false) := by
  cases x with
  | nil => rfl
  | cons c cs =>
    by_cases hc : c = '_'
    · subst hc
      rw [collapseBy, collapseBy, if_pos (by simp), if_pos (by simp)]
      show lstripBy (fun c => c = '_') (collapseBy (fun c => c = '_') '_' cs true)
        = lstripBy (fun c => c = '_') ('_' :: collapseBy (fun c => c = '_') '_' cs true)
      unfold lstripBy
      rw [List.dropWhile_cons, if_pos (by simp)]
    · rw [collapseBy, collapseBy, if_neg (by simp [hc]), if_neg (by simp [hc])]

theorem tidy_cons_underscore (y : Str) :
    stripBy (fun c => c = '_') (collapseBy (fun c => c = '_') '_' ('_' :: y) false)
      = stripBy (fun c => c = '_') (collapseBy (fun c => c = '_') '_' y false) := by
  rw [collapseBy, if_pos (by simp)]
  show stripBy (fun c => c = '_') ('_' :: collapseBy (fun c => c = '_') '_' y true) = _
  unfold stripBy
  rw [show lstripBy (fun c => c = '_') ('_' :: collapseBy (fun c => c = '_') '_' y true)
      = lstripBy (fun c => c = '_') (collapseBy (fun c => c = '_') '_' y true) from by
    unfold lstripBy
    rw [List.dropWhile_cons, if_pos (by simp)]]
  rw [lstripBy_collapseBy_underscore]

theorem rstripBy_append_of_matching (p : Char → Bool) (w : Str) {c : Char}
    (hc : p c = true) : rstripBy p (w ++ [c]) = rstripBy p w := by
  unfold rstripBy
  rw [List.reverse_append]
  show ((c :: w.reverse).dropWhile p).reverse = _
  rw [List.dropWhile_cons, if_pos hc]

theorem stripBy_append_of_matching (p : Char → Bool) (w : Str) {c : Char}
    (hc : p c = true) : stripBy p (w ++ [c]) = stripBy p w := by
  unfold stripBy lstripBy
  rw [List.dropWhile_append]
  by_cases h : (List.dropWhile p w).isEmpty
  · rw [if_pos h, List.isEmpty_iff.mp h]
    show rstripBy p (List.dropWhile p [c]) = rstripBy p []
    rw [List.dropWhile_cons, if_pos hc]
    rfl
  · rw [if_neg h]
    exact rstripBy_append_of_matching p _ hc

theorem tidy_append_underscore (y : Str) :
    stripBy (fun c => c = '_') (collapseBy (fun c => c = '_') '_' (y ++ ['_']) false)
      = stripBy (fun c => c = '_') (collapseBy (fun c => c = '_') '_' y false) := by
  rw [collapseBy_append (fun c => c = '_') '_' ['_'] y false]
  cases hfl : flagAfter (fun c => c = '_') y false
  · show stripBy (fun c => c = '_')
        (collapseBy (fun c => c = '_') '_' y false ++ ['_']) = _
    exact stripBy_append_of_matching (fun c => c = '_') _ (by simp)
  · show stripBy (fun c => c = '_')
        (collapseBy (fun c => c = '_') '_' y false ++ []) = _
    rw [List.append_nil]

theorem safeSegment_core (v : Str) :
    stripBy (fun c => c = '_') (collapseBy (fun c => c = '_') '_'
        (List.map (fun c => if safeChar c then c else '_')
          (collapseBy pyIsSpace '_' (pyStrip v) false)) false)
      = stripBy (fun c => c = '_') (collapseBy (fun c => c = '_') '_'
        (List.map (fun c => if safeChar c then c else '_')
          (collapseBy pyIsSpace '_' v false)) false) := by
  by_cases hm : lstripBy pyIsSpace v = []
  · have hps : pyStrip v = [] := by
      show rstripBy pyIsSpace (lstripBy pyIsSpace v) = []
      rw [hm]
      rfl
    rw [hps]
    by_cases hv : v = []
    · subst hv
      rfl
    · have hall : v.all pyIsSpace = true :=
        List.all_eq_true.mpr (List.dropWhile_eq_nil_iff.mp hm)
      have hcol : collapseBy pyIsSpace '_' v false = ['_'] := by
        have h2 := (collapseBy_all_p pyIsSpace '_' hall).2
        rw [if_neg hv] at h2
        exact h2
      rw [hcol]
      decide
  · have hhead : ∀ c, (lstripBy pyIsSpace v).head? = some c → pyIsSpace c = false := by
      intro c hc
      cases hm2 : lstripBy pyIsSpace v with
      | nil =>
        rw [hm2] at hc
        cases hc
      | cons d t =>
        rw [hm2] at hc
        have hdc : d = c := by
          simpa using hc
        subst hdc
        exact dropWhile_head_not hm2
    have hleft : stripBy (fun c => c = '_') (collapseBy (fun c => c = '_') '_'
          (List.map (fun c => if safeChar c then c else '_')
            (collapseBy pyIsSpace '_' v false)) false)
        = stripBy (fun c => c = '_') (collapseBy (fun c => c = '_') '_'
          (List.map (fun c => if safeChar c then c else '_')
            (collapseBy pyIsSpace '_' (lstripBy pyIsSpace v) false)) false) := by
      by_cases hpre : List.takeWhile pyIsSpace v = []
      · conv_lhs => rw [← List.takeWhile_append_dropWhile pyIsSpace v, hpre, List.nil_append]
        rfl
      · have hallpre : (List.takeWhile pyIsSpace v).all pyIsSpace = true :=
          List.all_eq_true.mpr fun x hx => List.mem_takeWhile_imp hx
        have hcolpre : collapseBy pyIsSpace '_' (List.takeWhile pyIsSpace v) false = ['_'] := by
          have h2 := (collapseBy_all_p pyIsSpace '_' hallpre).2
          rw [if_neg hpre] at h2
          exact h2
        have hflag : flagAfter pyIsSpace (List.takeWhile pyIsSpace v) false = true := by
          have h1 := List.dropLast_append_getLast hpre
          rw [← h1, flagAfter_append]
          exact List.mem_takeWhile_imp (List.getLast_mem hpre)
        conv_lhs => rw [← List.takeWhile_append_dropWhile pyIsSpace v]
        rw [collapseBy_append pyIsSpace '_' (List.dropWhile pyIsSpace v)
            (List.takeWhile pyIsSpace v) false]
        rw [hcolpre, hflag]
        rw [@collapseBy_flag_irrel pyIsSpace '_' (List.dropWhile pyIsSpace v)
            (fun c hc => hhead c hc)]
        simp only [List.singleton_append, List.map_cons]
        rw [show (if safeChar '_' then '_' else '_') = '_' from rfl]
        exact tidy_cons_underscore _
    have hsplit2 : rstripBy pyIsSpace (lstripBy pyIsSpace v)
        ++ (List.takeWhile pyIsSpace (lstripBy pyIsSpace v).reverse).reverse
        = lstripBy pyIsSpace v := by
      unfold rstripBy
      rw [← List.reverse_append, List.takeWhile_append_dropWhile, List.reverse_reverse]
    have hallsuf : ((List.takeWhile pyIsSpace (lstripBy pyIsSpace v).reverse).reverse).all
        pyIsSpace = true :=
      List.all_eq_true.mpr fun x hx => List.mem_takeWhile_imp (List.mem_reverse.mp hx)
    have hflag2 : flagAfter pyIsSpace (rstripBy pyIsSpace (lstripBy pyIsSpace v)) false
        = false := by
      cases hcore : List.dropWhile pyIsSpace (lstripBy pyIsSpace v).reverse with
      | nil =>
        rw [show rstripBy pyIsSpace (lstripBy pyIsSpace v) = [] from by
          unfold rstripBy
          rw [hcore]
          rfl]
        rfl
      | cons c t =>
        have hc : pyIsSpace c = false := dropWhile_head_not hcore
        rw [show rstripBy pyIsSpace (lstripBy pyIsSpace v) = t.reverse ++ [c] from by
          unfold rstripBy
          rw [hcore, List.reverse_cons]]
        rw [flagAfter_append]
        exact hc
    have hright : stripBy (fun c => c = '_') (collapseBy (fun c => c = '_') '_'
          (List.map (fun c => if safeChar c then c else '_')
            (collapseBy pyIsSpace '_' (pyStrip v) false)) false)
        = stripBy (fun c => c = '_') (collapseBy (fun c => c = '_') '_'
          (List.map (fun c => if safeChar c then c else '_')
            (collapseBy pyIsSpace '_' (lstripBy pyIsSpace v) false)) false) := by
      have hps2 : pyStrip v = rstripBy pyIsSpace (lstripBy pyIsSpace v) := rfl
      rw [hps2]
      conv_rhs => rw [← hsplit2]
      rw [collapseBy_append pyIsSpace '_'
          ((List.takeWhile pyIsSpace (lstripBy pyIsSpace v).reverse).reverse)
          (rstripBy pyIsSpace (lstripBy pyIsSpace v)) false]
      rw [hflag2]
      by_cases hsuf : (List.takeWhile pyIsSpace (lstripBy pyIsSpace v).reverse).reverse = []
      · rw [hsuf]
        rw [show collapseBy pyIsSpace '_' ([] : Str) false = [] from rfl, List.append_nil]
      · have hcolsuf : collapseBy pyIsSpace '_'
            ((List.takeWhile pyIsSpace (lstripBy pyIsSpace v).reverse).reverse) false
            = ['_'] := by
          have h2 := (collapseBy_all_p pyIsSpace '_' hallsuf).2
          rw [if_neg hsuf] at h2
          exact h2
        rw [hcolsuf, List.map_append]
        rw [show List.map (fun c => if safeChar c then c else '_') ['_'] = ['_'] from rfl]
        exact (tidy_append_underscore _).symm
    rw [hright]
    exact hleft.symm

theorem safeSegment_eq_specSanitize (v : Str) : safeSegment v = specSanitize v := by
  unfold safeSegment specSanitize
  dsimp only
  rw [safeSegment_core v]

/-- C8 as literally stated is wrong on its sanitization step: for the name
`a!b` with the underscore delimiter the planner produces `a_b` — the
out-of-class character `!` is REPLACED by an underscore — whereas the
claim's "stripping characters outside [A-Za-z0-9._-]" (removal) yields
`ab`. -/
theorem c8_claim_counterexample :
    prefixFromName "a!b".data "UNDERSCORE".data = "a_b".data ∧
    claimSanitize (firstTokenSpec "a!b".data (delimiterToken "UNDERSCORE".data)) = "ab".data ∧
    prefixFromName "a!b".data "UNDERSCORE".data
      ≠ claimSanitize (firstTokenSpec "a!b".data (delimiterToken "UNDERSCORE".data)) :=
  ⟨by decide, by decide, by decide⟩

/-- C8 amended: in name-prefix mode the planner takes the first token of
the delimiter split (underscore, dash, or whitespace — for whitespace the
first `str.split()` token) and sanitizes it by collapsing whitespace runs
to a single underscore, REPLACING each character outside `[A-Za-z0-9._-]`
with an underscore, collapsing repeated underscores AND stripping leading
and trailing underscores, with fallback `"Uncategorized"` if the result is
empty. -/
theorem c8_prefix_sanitize (name delimEnum : Str) :
    prefixFromName name delimEnum
      = specSanitize (firstTokenSpec name (delimiterToken delimEnum)) := by
  have h : prefixFromName name delimEnum
      = safeSegment (firstTokenSpec name (delimiterToken delimEnum)) := rfl
  rw [h, safeSegment_eq_specSanitize]
